import Mathlib

/-!
Verification of the function/template extraction-restoration engine of
node-red-contrib-flow-splitter-extended.

The repository contains two near-duplicate handler implementations:

* `src/functions-templates-handler.js` — `extractFunctionsAndTemplates`
  (no directory pre-deletion, with a substring-matching garbage collector
  `cleanupUnusedFiles`) and `collectFunctionsAndTemplates`;
* `src/unnamed/part_001` — `extractFunctionsAndTemplates` (deletes the whole
  extraction directory up front, no garbage collector) and
  `restoreFunctionsAndTemplates` (body identical to
  `collectFunctionsAndTemplates`).

The filesystem is modelled as an association list from full path strings to
file contents.  A file's content is either plain text or a parsed manifest:
the `.manifest.json` file is written as `JSON.stringify` of the manifest
object and read back with `JSON.parse`, which round-trips the record, so the
embedding stores the manifest structurally; a manifest file that exists but
holds unparseable text is modelled by a `.text` entry at the manifest path.
-/

namespace FlowSplitter

/-! ## String primitives

JavaScript string operations used by the handlers, implemented over
`List Char` so that every definition reduces in the kernel. -/

/-- Substring test on character lists: `listHasSub big pat = true` iff `pat`
occurs contiguously in `big`; mirrors JS `big.indexOf(pat) !== -1`. -/
def listHasSub (pat : List Char) : List Char → Bool
  | [] => pat.isPrefixOf ([] : List Char)
  | c :: rest => pat.isPrefixOf (c :: rest) || listHasSub pat rest

/-- JS `s.indexOf(pat) > -1` / `!== -1` on strings. -/
def strContains (s pat : String) : Bool := listHasSub pat.data s.data

/-- JS `s.endsWith(suf)`. -/
def strEndsWith (s suf : String) : Bool := suf.data.reverse.isPrefixOf s.data.reverse

/-- JS-style whitespace trim, as used by `.trim()` in the handlers. -/
def strTrim (s : String) : String :=
  ⟨((s.data.dropWhile Char.isWhitespace).reverse.dropWhile Char.isWhitespace).reverse⟩

/-- Characters replaced by `-` in `name.replace(/[\/\\:*?"<>|]/g, '-')`. -/
def badChar (c : Char) : Bool :=
  c == '/' || c == '\\' || c == ':' || c == '*' || c == '?' || c == '"' ||
  c == '<' || c == '>' || c == '|'

/-- Name sanitizer of both extraction passes. -/
def sanitize (s : String) : String := ⟨s.data.map (fun c => if badChar c then '-' else c)⟩

/-- Decimal digit characters of a natural number; fuel-based so that the
definition reduces structurally (`fuel` bounds the recursion depth). -/
def decChars : Nat → Nat → List Char
  | 0, _ => []
  | fuel + 1, n => if n < 10 then [Nat.digitChar n] else decChars fuel (n / 10) ++ [Nat.digitChar (n % 10)]

/-- Decimal rendering of a natural number, as produced by the JS template
literal interpolation of a number. -/
def natDecimal (n : Nat) : String := ⟨decChars (n + 1) n⟩

/-- JS `path.join(a, b)` for the simple relative components the handlers use. -/
def pjoin (a b : String) : String := a ++ "/" ++ b

/-! ## Node records and JS-truthiness helpers -/

/-- One Node-RED node record, restricted to the fields `functions-templates-handler`
reads or writes.  The JS `initialize` field is named `initCode` here and the
`finalize` field `finCode` (the original spellings are unavailable as Lean
identifiers); all other field names follow the source.  An absent field is
`none`. -/
structure NodeRec where
  id : String
  type : String
  name : Option String
  func : Option String
  format : Option String
  initCode : Option String
  finCode : Option String
  info : Option String
deriving Repr, DecidableEq

/-- JS `a || b` for an optional string `a` and default `b`: the default is
used when `a` is absent or empty (empty strings are falsy). -/
def jsOr (a : Option String) (b : String) : String :=
  match a with
  | some s => if s.data.isEmpty then b else s
  | none => b

/-- Is the optional string absent or whitespace-only?  Mirrors
`(x ?? '').trim().length === 0`. -/
def isBlankOpt (o : Option String) : Bool := ((jsOr o "").data.isEmpty) || (strTrim (jsOr o "")).data.isEmpty

/-- JS `typeof x === 'string' && x.trim().length > 0`. -/
def optNonBlank (o : Option String) : Bool :=
  match o with
  | some s => !(strTrim s).data.isEmpty
  | none => false

/-- Raw name selected for a node of extractable type (`node.name || default`),
`none` for every other node type; mirrors the opening `if/else` of the
per-node loop in `extractFunctionsAndTemplates`. -/
def rawName (node : NodeRec) : Option String :=
  if node.type == "function" then some (jsOr node.name "unnamed-function")
  else if node.type == "ui-template" then some (jsOr node.name "unnamed-template")
  else none

/-! ## Manifest and filesystem model -/

/-- One manifest entry, exactly the record stored under `manifest[id]`.  The JS
`hasInitialize` flag is named `hasInit` and `hasFinalize` is `hasFin` (see
`NodeRec`). -/
structure ManifestEntry where
  nodeId : String
  name : String
  sanitizedName : String
  fileName : String
  isVue : Bool
  isFun : Bool
  hasCode : Bool
  hasInit : Bool
  hasFin : Bool
  hasInfo : Bool
deriving Repr, DecidableEq

/-- Manifest object: node id to entry, in JS-object insertion order. -/
abbrev Manifest := List (String × ManifestEntry)

/-- Content of one file: plain text, or a manifest as serialized by
`JSON.stringify` (stored structurally, see the module docstring). -/
inductive FsEntry where
  | text (s : String)
  | mf (m : Manifest)
deriving Repr, DecidableEq

/-- Filesystem: full path to file content, in creation order. -/
abbrev FS := List (String × FsEntry)

/-- Read a file (`fs.readFileSync` preceded by `fs.existsSync`). -/
def fsRead (fs : FS) (p : String) : Option FsEntry :=
  (fs.find? (fun kv => kv.1 == p)).map (fun kv => kv.2)

/-- Write a file (`fs.writeFileSync`): overwrite in place when the path
exists, create at the end otherwise. -/
def fsWrite (fs : FS) (p : String) (e : FsEntry) : FS :=
  match fs with
  | [] => [(p, e)]
  | kv :: rest => if kv.1 == p then (p, e) :: rest else kv :: fsWrite rest p e

/-- Delete one file (`fs.removeSync` on a file path). -/
def fsErase (fs : FS) (p : String) : FS := fs.filter (fun kv => !(kv.1 == p))

/-- Is path `p` strictly below directory `dir`? -/
def underDir (dir p : String) : Bool := (dir ++ "/").data.isPrefixOf p.data

/-- Recursively delete a directory (`fs.removeSync(extractedDir)`): every
path below `dir` disappears. -/
def fsEraseDir (fs : FS) (dir : String) : FS :=
  fs.filter (fun kv => !(underDir dir kv.1))

/-- Apply a sequence of writes in order. -/
def applyWrites (fs : FS) (ws : List (String × FsEntry)) : FS :=
  ws.foldl (fun a w => fsWrite a w.1 w.2) fs

/-- Read a plain-text file; a missing file (or a non-text entry) is `none`,
matching the `fs.existsSync` guards before every `readFileSync` in the
restoration pass. -/
def readText (fs : FS) (p : String) : Option String :=
  match fsRead fs p with
  | some (.text s) => some s
  | _ => none

/-! ## Per-node classification and writes -/

/-- Everything the per-node body of `extractFunctionsAndTemplates` derives for
one node of extractable type: the collision-resolved basename, the Vue/function
classification, and the four cleaned-up optional contents.  Fields `initCode`
and `finCode` model the JS `initialize` and `finalize` locals. -/
structure NodeClass where
  sanitizedName : String
  fileName : String
  isVue : Bool
  isFun : Bool
  code : Option String
  initCode : Option String
  finCode : Option String
  info : Option String
deriving Repr, DecidableEq

/-- Vue-template detection: the node's `format` is a string whose trimmed
value contains `<template>` or `<script>` (`typeof node.format === 'string'
&& (hasTemplate || hasScript)`). -/
def isVueNode (node : NodeRec) : Bool :=
  match node.format with
  | some s => strContains (strTrim s) "<template>" || strContains (strTrim s) "<script>"
  | none => false

/-- Function detection: some script field is a non-blank string and the node
is not Vue-classified. -/
def isFunNode (node : NodeRec) : Bool :=
  (optNonBlank node.func || optNonBlank node.initCode || optNonBlank node.finCode) && !(isVueNode node)

/-- Classification of one node given its sanitized name and the number of
occurrences of that sanitized name so far (current one included), exactly as
in the body of the `flowNodes.forEach` loop of both extraction variants. -/
def classifyNode (node : NodeRec) (sanitizedName : String) (nameCount : Nat) : NodeClass :=
  let fileName := if nameCount > 1 then sanitizedName ++ "(" ++ natDecimal nameCount ++ ")" else sanitizedName
  let isVue := isVueNode node
  let isFun := isFunNode node
  let code := if isVue then node.format else node.func
  let initV := if isFun then node.initCode else none
  let finV := if isFun then node.finCode else none
  let infoV := node.info
  { sanitizedName := sanitizedName
    fileName := fileName
    isVue := isVue
    isFun := isFun
    code := if isBlankOpt code then none else code
    initCode := if isBlankOpt initV then none else initV
    finCode := if isBlankOpt finV then none else finV
    info := if isBlankOpt infoV then none else infoV }

/-- File writes performed for one extracted node, in source order: main body
(`.vue` or `.js`), `.initialize.js`, `.finalize.js`, `.info.md`, each written
only when its cleaned content is non-null. -/
def nodeWrites (extractedDir : String) (c : NodeClass) : List (String × FsEntry) :=
  (match c.code with
   | some s => [(pjoin extractedDir (c.fileName ++ "." ++ (if c.isVue then "vue" else "js")), FsEntry.text s)]
   | none => []) ++
  (match c.initCode with
   | some s => [(pjoin extractedDir (c.fileName ++ ".initialize.js"), FsEntry.text s)]
   | none => []) ++
  (match c.finCode with
   | some s => [(pjoin extractedDir (c.fileName ++ ".finalize.js"), FsEntry.text s)]
   | none => []) ++
  (match c.info with
   | some s => [(pjoin extractedDir (c.fileName ++ ".info.md"), FsEntry.text s)]
   | none => [])

/-- Manifest entry stored for one extracted node. -/
def nodeEntry (node : NodeRec) (name : String) (c : NodeClass) : ManifestEntry :=
  { nodeId := node.id
    name := name
    sanitizedName := c.sanitizedName
    fileName := c.fileName
    isVue := c.isVue
    isFun := c.isFun
    hasCode := c.code.isSome
    hasInit := c.initCode.isSome
    hasFin := c.finCode.isSome
    hasInfo := c.info.isSome }

/-- JS object assignment `manifest[id] = e`: overwrite in place when the key
exists, append otherwise (JS objects keep the original key position). -/
def mUpdate (m : Manifest) (id : String) (e : ManifestEntry) : Manifest :=
  if m.any (fun kv => kv.1 == id) then
    m.map (fun kv => if kv.1 == id then (id, e) else kv)
  else m ++ [(id, e)]

/-! ## The extraction pass -/

/-- Mutable state of one extraction pass: the filesystem plus the `manifest`,
`fileNames` and `count` locals of `extractFunctionsAndTemplates`. -/
structure PassState where
  fs : FS
  manifest : Manifest
  fileNames : List String
  count : Nat
deriving Repr, DecidableEq

/-- Body of the `flowNodes.forEach` loop, shared verbatim by both extraction
variants: skip nodes of other types, push the sanitized name, resolve the
collision suffix, classify, and for an extractable node write its files and
record its manifest entry.  (`mkdirSync` is a no-op in the flat path model.) -/
def processNode (extractedDir : String) (st : PassState) (node : NodeRec) : PassState :=
  match rawName node with
  | none => st
  | some name =>
    let sanitizedName := sanitize name
    let fileNames := st.fileNames ++ [sanitizedName]
    let nameCount := (fileNames.filter (fun n => n == sanitizedName)).length
    let c := classifyNode node sanitizedName nameCount
    if c.isVue || c.isFun then
      { fs := applyWrites st.fs (nodeWrites extractedDir c)
        manifest := mUpdate st.manifest node.id (nodeEntry node name c)
        fileNames := fileNames
        count := st.count + 1 }
    else
      { st with fileNames := fileNames }

/-- The whole `flowNodes.forEach` loop. -/
def extractCore (extractedDir : String) (nodes : List NodeRec) (st : PassState) : PassState :=
  nodes.foldl (processNode extractedDir) st

/-- Path of the sidecar manifest file. -/
def manifestPath (extractedDir : String) : String := pjoin extractedDir ".manifest.json"

/-- Extraction as implemented in `src/unnamed/part_001`: on a non-empty node
list, first recursively delete the extraction directory, then run the pass and
write the manifest when at least one node was extracted. -/
def extractFresh (nodes : List NodeRec) (flowName flowDir : String) (fs : FS) : FS :=
  if nodes.isEmpty then fs else
  let extractedDir := pjoin flowDir flowName
  let fs0 := fsEraseDir fs extractedDir
  let st := extractCore extractedDir nodes { fs := fs0, manifest := [], fileNames := [], count := 0 }
  if st.count > 0 then fsWrite st.fs (manifestPath extractedDir) (FsEntry.mf st.manifest) else st.fs

/-- Recognized side-file extensions scanned by `getAllFiles`. -/
def recognizedExt (rel : String) : Bool :=
  strEndsWith rel ".vue" || strEndsWith rel ".js" || strEndsWith rel ".md"

/-- Relative path of `p` below `dir`, when `p` lies below `dir`. -/
def relUnder (dir p : String) : Option String :=
  if (dir ++ "/").data.isPrefixOf p.data then some ⟨p.data.drop (dir ++ "/").data.length⟩ else none

/-- Relative paths of all files below `dir` bearing a recognized extension,
mirroring `getAllFiles(extractedDir, ['.vue', '.js', '.md'])` (which recurses
into subdirectories and returns paths relative to `dir`). -/
def dirFiles (dir : String) (fs : FS) : List String :=
  fs.filterMap (fun kv =>
    match relUnder dir kv.1 with
    | some rel => if recognizedExt rel then some rel else none
    | none => none)

/-- Does any manifest entry's `fileName` occur as a substring of the file name
(`file.indexOf(item.fileName) > -1`)? -/
def manifestMatches (m : Manifest) (rel : String) : Bool :=
  m.any (fun kv => strContains rel kv.2.fileName)

/-- Garbage collector `cleanupUnusedFiles` of `src/functions-templates-handler.js`:
delete every listed file that is not the manifest and matches no manifest
entry's `fileName` as a substring. -/
def cleanupUnusedFiles (extractedDir : String) (m : Manifest) (fs : FS) : FS :=
  (dirFiles extractedDir fs).foldl
    (fun acc file =>
      if strEndsWith file ".manifest.json" then acc
      else if manifestMatches m file then acc
      else fsErase acc (pjoin extractedDir file))
    fs

/-- Extraction as implemented in `src/functions-templates-handler.js`: run the
pass on the existing directory state, write the manifest when at least one
node was extracted, then garbage-collect unmatched files. -/
def extractWithGC (nodes : List NodeRec) (flowName flowDir : String) (fs : FS) : FS :=
  if nodes.isEmpty then fs else
  let extractedDir := pjoin flowDir flowName
  let st := extractCore extractedDir nodes { fs := fs, manifest := [], fileNames := [], count := 0 }
  let fs1 := if st.count > 0 then fsWrite st.fs (manifestPath extractedDir) (FsEntry.mf st.manifest) else st.fs
  cleanupUnusedFiles extractedDir st.manifest fs1

/-! ## Restoration -/

/-- First read-and-update block of `restoreFunctionsAndTemplates` (main body):
read the `.vue`/`.js` file when `hasCode` is set and it exists; on a Vue entry
overwrite both `format` and `func`, on a function entry only `func`, and only
when the content differs from the current value. -/
def updCode (extractedDir : String) (fs : FS) (item : ManifestEntry) (n : NodeRec) : NodeRec :=
  match (if item.hasCode then
      readText fs (pjoin extractedDir (item.fileName ++ "." ++ (if item.isVue then "vue" else "js")))
    else none) with
  | some content =>
    if item.isVue then
      (if n.format == some content then n else { n with format := some content, func := some content })
    else if item.isFun then
      (if n.func == some content then n else { n with func := some content })
    else n
  | none => n

/-- Second block: `.initialize.js` into the JS `initialize` field (`initCode`). -/
def updInit (extractedDir : String) (fs : FS) (item : ManifestEntry) (n : NodeRec) : NodeRec :=
  match (if item.hasInit then readText fs (pjoin extractedDir (item.fileName ++ ".initialize.js"))
    else none) with
  | some content => if n.initCode == some content then n else { n with initCode := some content }
  | none => n

/-- Third block: `.finalize.js` into the JS `finalize` field (`finCode`). -/
def updFin (extractedDir : String) (fs : FS) (item : ManifestEntry) (n : NodeRec) : NodeRec :=
  match (if item.hasFin then readText fs (pjoin extractedDir (item.fileName ++ ".finalize.js"))
    else none) with
  | some content => if n.finCode == some content then n else { n with finCode := some content }
  | none => n

/-- Fourth block: `.info.md` into `info`. -/
def updInfo (extractedDir : String) (fs : FS) (item : ManifestEntry) (n : NodeRec) : NodeRec :=
  match (if item.hasInfo then readText fs (pjoin extractedDir (item.fileName ++ ".info.md"))
    else none) with
  | some content => if n.info == some content then n else { n with info := some content }
  | none => n

/-- Update of one located node from one manifest entry: the four sequential
read-and-update blocks of `restoreFunctionsAndTemplates`. -/
def updateNode (extractedDir : String) (fs : FS) (item : ManifestEntry) (n : NodeRec) : NodeRec :=
  updInfo extractedDir fs item (updFin extractedDir fs item
    (updInit extractedDir fs item (updCode extractedDir fs item n)))

/-- Mutate the first node with the given id (JS `flowNodes.find` returns the
first match, which the loop body then mutates); when no node matches, the
entry is skipped with a warning. -/
def updateFirst (nodes : List NodeRec) (id : String) (f : NodeRec → NodeRec) : List NodeRec :=
  match nodes with
  | [] => []
  | n :: rest => if n.id == id then f n :: rest else n :: updateFirst rest id f

/-- Restoration, `restoreFunctionsAndTemplates` of `src/unnamed/part_001`
(`collectFunctionsAndTemplates` of `src/functions-templates-handler.js` is
textually identical): return the list unchanged when it is empty, when no
manifest file exists, or when the manifest file exists but fails to parse
(logged as a warning); otherwise fold the manifest entries over the node
list. -/
def restoreFunctionsAndTemplates (nodes : List NodeRec) (flowName flowDir : String) (fs : FS) : List NodeRec :=
  if nodes.isEmpty then nodes else
  let extractedDir := pjoin flowDir flowName
  match fsRead fs (manifestPath extractedDir) with
  | none => nodes
  | some (.text _) => nodes
  | some (.mf m) =>
    m.foldl (fun acc kv => updateFirst acc kv.1 (updateNode extractedDir fs kv.2)) nodes

/-! ## Pure descriptors of one extraction pass

The extraction pass is deterministic: its file writes, manifest, pushed name
list and count are functions of the node list alone.  `processPure` repeats
`processNode` but records the write sequence instead of applying it; the
bridging lemma `extractCore_eq` below ties the two together. -/

/-- Pure pass data: write sequence, manifest, pushed sanitized names, count. -/
structure PassPure where
  ws : List (String × FsEntry)
  manifest : Manifest
  fileNames : List String
  count : Nat
deriving Repr, DecidableEq

/-- Pure counterpart of `processNode`. -/
def processPure (extractedDir : String) (st : PassPure) (node : NodeRec) : PassPure :=
  match rawName node with
  | none => st
  | some name =>
    let sanitizedName := sanitize name
    let fileNames := st.fileNames ++ [sanitizedName]
    let nameCount := (fileNames.filter (fun n => n == sanitizedName)).length
    let c := classifyNode node sanitizedName nameCount
    if c.isVue || c.isFun then
      { ws := st.ws ++ nodeWrites extractedDir c
        manifest := mUpdate st.manifest node.id (nodeEntry node name c)
        fileNames := fileNames
        count := st.count + 1 }
    else
      { st with fileNames := fileNames }

/-- Pure data of a whole pass started from the empty state. -/
def passPure (extractedDir : String) (nodes : List NodeRec) : PassPure :=
  nodes.foldl (processPure extractedDir) { ws := [], manifest := [], fileNames := [], count := 0 }

/-- Manifest produced by one extraction pass. -/
def manifestOf (extractedDir : String) (nodes : List NodeRec) : Manifest :=
  (passPure extractedDir nodes).manifest

/-- Complete ordered write sequence of one pass: the per-node file writes
followed by the manifest write when anything was extracted. -/
def writeSeq (extractedDir : String) (nodes : List NodeRec) : List (String × FsEntry) :=
  let p := passPure extractedDir nodes
  p.ws ++ (if p.count > 0 then [(manifestPath extractedDir, FsEntry.mf p.manifest)] else [])

/-- Content of the last write in `ws` targeting `p`, if any. -/
def lastWrite (ws : List (String × FsEntry)) (p : String) : Option FsEntry :=
  ws.foldl (fun acc w => if w.1 == p then some w.2 else acc) none

/-- Does extraction produce files and a manifest entry for this node?  A node
counts iff its type is extractable and it is Vue- or function-classified. -/
def extractable (node : NodeRec) : Bool :=
  (rawName node).isSome && (isVueNode node || isFunNode node)

/-- Deletion condition of `cleanupUnusedFiles` for an absolute path `q`:
below the directory, recognized extension, not the manifest, and no manifest
entry's `fileName` occurs in the relative name. -/
def gcDeletes (dir : String) (m : Manifest) (q : String) : Bool :=
  match relUnder dir q with
  | some rel => recognizedExt rel && !(strEndsWith rel ".manifest.json") && !(manifestMatches m rel)
  | none => false

/-- Manifest entries stored under a given node id. -/
def entriesFor (m : Manifest) (id : String) : List ManifestEntry :=
  (m.filter (fun kv => kv.1 == id)).map (fun kv => kv.2)

/-- Placeholder node record used as the default of `List.getD`. -/
def noNode : NodeRec := ⟨"", "", none, none, none, none, none, none⟩

/-- Sample builder: a `function` node with only `func` set. -/
def mkFunNode (id nm fn : String) : NodeRec :=
  ⟨id, "function", some nm, some fn, none, none, none, none⟩

/-- Derived abbreviation: the sanitized basename a `function` node named `nm`
receives when its name is collision-free. -/
def funFileName (nm : String) : String := sanitize (jsOr (some nm) "unnamed-function")

/-! ## Write-fault model for the extraction pass

`fs.writeFileSync` can throw (permission denied, disk full).  The source wraps
none of the write calls of `extractFunctionsAndTemplates` in try/catch, so an
exception unwinds the `forEach` and aborts the whole pass for that entity (it
is caught per-entity in `processFlowDirectory` of index.js).  The definitions
below repeat the extraction pass under an explicit fault model: every write to
a path in `bad` throws; the error value carries the failing path and the
filesystem state at the throw. -/

/-- `fs.writeFileSync` under the fault model. -/
def fsWriteE (bad : List String) (fs : FS) (p : String) (e : FsEntry) : Except (String × FS) FS :=
  if bad.contains p then Except.error (p, fs) else Except.ok (fsWrite fs p e)

/-- Apply a sequence of writes, stopping at the first throw. -/
def applyWritesE (bad : List String) : FS → List (String × FsEntry) → Except (String × FS) FS
  | fs, [] => Except.ok fs
  | fs, w :: rest =>
    match fsWriteE bad fs w.1 w.2 with
    | Except.error err => Except.error err
    | Except.ok fs2 => applyWritesE bad fs2 rest

/-- Loop body `processNode` under the fault model: the up-to-four
`writeFileSync` calls may throw and there is no catch around them. -/
def processNodeE (bad : List String) (extractedDir : String) (st : PassState) (node : NodeRec) :
    Except (String × FS) PassState :=
  match rawName node with
  | none => Except.ok st
  | some name =>
    let sanitizedName := sanitize name
    let fileNames := st.fileNames ++ [sanitizedName]
    let nameCount := (fileNames.filter (fun n => n == sanitizedName)).length
    let c := classifyNode node sanitizedName nameCount
    if c.isVue || c.isFun then
      match applyWritesE bad st.fs (nodeWrites extractedDir c) with
      | Except.error err => Except.error err
      | Except.ok fs2 =>
        Except.ok
          { fs := fs2
            manifest := mUpdate st.manifest node.id (nodeEntry node name c)
            fileNames := fileNames
            count := st.count + 1 }
    else Except.ok { st with fileNames := fileNames }

/-- The whole `forEach` loop under the fault model: a throw in one node's
writes aborts the remaining nodes. -/
def extractCoreE (bad : List String) (extractedDir : String) :
    List NodeRec → PassState → Except (String × FS) PassState
  | [], st => Except.ok st
  | n :: rest, st =>
    match processNodeE bad extractedDir st n with
    | Except.error err => Except.error err
    | Except.ok st2 => extractCoreE bad extractedDir rest st2

/-- part_001 extraction under the fault model (the manifest write may also
throw). -/
def extractFreshE (bad : List String) (nodes : List NodeRec) (flowName flowDir : String)
    (fs : FS) : Except (String × FS) FS :=
  if nodes.isEmpty then Except.ok fs else
  let extractedDir := pjoin flowDir flowName
  let fs0 := fsEraseDir fs extractedDir
  match extractCoreE bad extractedDir nodes { fs := fs0, manifest := [], fileNames := [], count := 0 } with
  | Except.error err => Except.error err
  | Except.ok st =>
    if st.count > 0 then fsWriteE bad st.fs (manifestPath extractedDir) (FsEntry.mf st.manifest)
    else Except.ok st.fs

/-! ## Pointwise filesystem lemmas -/

theorem fsRead_cons (kv : String × FsEntry) (fs : FS) (q : String) :
    fsRead (kv :: fs) q = if kv.1 = q then some kv.2 else fsRead fs q := by
  simp only [fsRead, List.find?]
  by_cases h : kv.1 = q
  · simp [h]
  · simp [h, beq_eq_false_iff_ne.mpr h]

theorem fsRead_fsWrite (fs : FS) (p : String) (e : FsEntry) (q : String) :
    fsRead (fsWrite fs p e) q = if q = p then some e else fsRead fs q := by
  induction fs with
  | nil =>
    rcases eq_or_ne q p with h | h
    · subst h; simp [fsWrite, fsRead_cons]
    · simp [fsWrite, fsRead_cons, h, Ne.symm h, fsRead]
  | cons kv rest ih =>
    by_cases hk : kv.1 = p
    · rcases eq_or_ne q p with h | h
      · subst h; simp [fsWrite, hk, fsRead_cons]
      · simp [fsWrite, hk, fsRead_cons, h, Ne.symm h]
    · rcases eq_or_ne q p with h | h
      · subst h
        simp [fsWrite, beq_eq_false_iff_ne.mpr hk, fsRead_cons, hk, ih]
      · by_cases h2 : kv.1 = q
        · simp [fsWrite, beq_eq_false_iff_ne.mpr hk, fsRead_cons, h2, h]
        · simp [fsWrite, beq_eq_false_iff_ne.mpr hk, fsRead_cons, h2, h, ih]

theorem fsErase_cons (kv : String × FsEntry) (rest : FS) (p : String) :
    fsErase (kv :: rest) p = if kv.1 = p then fsErase rest p else kv :: fsErase rest p := by
  simp only [fsErase, List.filter_cons]
  by_cases hk : kv.1 = p
  · simp [hk]
  · simp [hk, beq_eq_false_iff_ne.mpr hk]

theorem fsEraseDir_cons (kv : String × FsEntry) (rest : FS) (dir : String) :
    fsEraseDir (kv :: rest) dir =
      if underDir dir kv.1 then fsEraseDir rest dir else kv :: fsEraseDir rest dir := by
  simp only [fsEraseDir, List.filter_cons]
  by_cases hk : underDir dir kv.1
  · simp [hk]
  · simp [hk]

theorem fsRead_fsErase (fs : FS) (p : String) (q : String) :
    fsRead (fsErase fs p) q = if q = p then none else fsRead fs q := by
  induction fs with
  | nil => simp [fsErase, fsRead]
  | cons kv rest ih =>
    rw [fsErase_cons]
    by_cases hk : kv.1 = p
    · rw [if_pos hk, ih, fsRead_cons]
      rcases eq_or_ne q p with h | h
      · simp [h]
      · have hne : kv.1 ≠ q := by rw [hk]; exact Ne.symm h
        simp [h, hne]
    · rw [if_neg hk, fsRead_cons, ih, fsRead_cons]
      by_cases h2 : kv.1 = q
      · have hqp : q ≠ p := fun hq => hk (h2.trans hq)
        simp [h2, hqp]
      · simp [h2]

theorem fsRead_fsEraseDir (fs : FS) (dir : String) (q : String) :
    fsRead (fsEraseDir fs dir) q = if underDir dir q then none else fsRead fs q := by
  induction fs with
  | nil => simp [fsEraseDir, fsRead]
  | cons kv rest ih =>
    rw [fsEraseDir_cons]
    by_cases hk : underDir dir kv.1
    · rw [if_pos hk, ih, fsRead_cons]
      by_cases hu : underDir dir q
      · simp [hu]
      · have hne : kv.1 ≠ q := fun hh => hu (hh ▸ hk)
        simp [hu, hne]
    · rw [if_neg hk, fsRead_cons, ih, fsRead_cons]
      by_cases h2 : kv.1 = q
      · have hu : ¬(underDir dir q = true) := h2 ▸ hk
        simp [h2, hu]
      · simp [h2]

theorem lastWrite_aux (ws : List (String × FsEntry)) (q : String) :
    ∀ init : Option FsEntry,
      ws.foldl (fun acc w => if w.1 == q then some w.2 else acc) init = (lastWrite ws q).elim init some := by
  induction ws with
  | nil => intro init; rfl
  | cons w rest ih =>
    intro init
    have e1 : (w :: rest).foldl (fun acc w => if w.1 == q then some w.2 else acc) init =
        rest.foldl (fun acc w => if w.1 == q then some w.2 else acc) (if w.1 == q then some w.2 else init) := rfl
    have e2 : lastWrite (w :: rest) q =
        rest.foldl (fun acc w => if w.1 == q then some w.2 else acc) (if w.1 == q then some w.2 else none) := rfl
    rw [e1, e2, ih, ih]
    cases lastWrite rest q with
    | some e => rfl
    | none =>
      by_cases hw : w.1 = q
      · simp [hw]
      · simp [beq_eq_false_iff_ne.mpr hw]

theorem lastWrite_cons (w : String × FsEntry) (rest : List (String × FsEntry)) (q : String) :
    lastWrite (w :: rest) q =
      (lastWrite rest q).elim (if w.1 == q then some w.2 else none) some := by
  simp only [lastWrite, List.foldl]
  exact lastWrite_aux rest q _

theorem lastWrite_append (a b : List (String × FsEntry)) (q : String) :
    lastWrite (a ++ b) q = (lastWrite b q).elim (lastWrite a q) some := by
  simp only [lastWrite, List.foldl_append]
  exact lastWrite_aux b q _

theorem applyWrites_append (fs : FS) (a b : List (String × FsEntry)) :
    applyWrites fs (a ++ b) = applyWrites (applyWrites fs a) b := by
  simp [applyWrites, List.foldl_append]

theorem fsRead_applyWrites (fs : FS) (ws : List (String × FsEntry)) (q : String) :
    fsRead (applyWrites fs ws) q = (lastWrite ws q).elim (fsRead fs q) some := by
  induction ws generalizing fs with
  | nil => rfl
  | cons w rest ih =>
    simp only [applyWrites, List.foldl] at *
    rw [ih, lastWrite_cons]
    cases h : lastWrite rest q with
    | some e => simp
    | none =>
      simp only [Option.elim]
      by_cases hw : w.1 = q
      · rw [fsRead_fsWrite]
        simp [hw]
      · have hqw : ¬(q = w.1) := fun hh => hw hh.symm
        rw [fsRead_fsWrite]
        simp [beq_eq_false_iff_ne.mpr hw, hqw]

/-! ## Bridging the extraction pass with its pure descriptor -/

theorem processPure_step_shift (dir : String) (n : NodeRec) (w0 ws : List (String × FsEntry))
    (m : Manifest) (f : List String) (c : Nat) :
    processPure dir ⟨w0 ++ ws, m, f, c⟩ n =
      ⟨w0 ++ (processPure dir ⟨ws, m, f, c⟩ n).ws, (processPure dir ⟨ws, m, f, c⟩ n).manifest,
       (processPure dir ⟨ws, m, f, c⟩ n).fileNames, (processPure dir ⟨ws, m, f, c⟩ n).count⟩ := by
  cases hn : rawName n with
  | none => simp [processPure, hn]
  | some name =>
    simp only [processPure, hn]
    split
    · simp [List.append_assoc]
    · simp

theorem processPure_fold_shift (dir : String) (nodes : List NodeRec) :
    ∀ (w0 : List (String × FsEntry)) (m : Manifest) (f : List String) (c : Nat),
      nodes.foldl (processPure dir) ⟨w0, m, f, c⟩ =
        ⟨w0 ++ (nodes.foldl (processPure dir) ⟨[], m, f, c⟩).ws,
         (nodes.foldl (processPure dir) ⟨[], m, f, c⟩).manifest,
         (nodes.foldl (processPure dir) ⟨[], m, f, c⟩).fileNames,
         (nodes.foldl (processPure dir) ⟨[], m, f, c⟩).count⟩ := by
  induction nodes with
  | nil => intro w0 m f c; simp
  | cons n rest ih =>
    intro w0 m f c
    have e0 : (n :: rest).foldl (processPure dir) ⟨w0, m, f, c⟩ =
        rest.foldl (processPure dir) (processPure dir ⟨w0, m, f, c⟩ n) := rfl
    have e1 : (n :: rest).foldl (processPure dir) ⟨[], m, f, c⟩ =
        rest.foldl (processPure dir) (processPure dir ⟨[], m, f, c⟩ n) := rfl
    have e2 := processPure_step_shift dir n w0 [] m f c
    rw [List.append_nil] at e2
    rw [e0, e1, e2]
    rcases hr : processPure dir ⟨[], m, f, c⟩ n with ⟨rws, rm, rf, rc⟩
    rw [ih (w0 ++ rws) rm rf rc, ih rws rm rf rc]
    simp [List.append_assoc]

theorem processNode_processPure (dir : String) (n : NodeRec) (fs : FS) (m : Manifest)
    (f : List String) (c : Nat) :
    ∃ nw m2 f2 c2,
      processNode dir ⟨fs, m, f, c⟩ n = ⟨applyWrites fs nw, m2, f2, c2⟩ ∧
      processPure dir ⟨[], m, f, c⟩ n = ⟨nw, m2, f2, c2⟩ := by
  cases hn : rawName n with
  | none =>
    refine ⟨[], m, f, c, ?_, ?_⟩ <;> simp [processNode, processPure, hn, applyWrites]
  | some name =>
    by_cases hcls :
        ((classifyNode n (sanitize name)
            ((f.filter (fun x => x == sanitize name)).length + 1)).isVue ||
         (classifyNode n (sanitize name)
            ((f.filter (fun x => x == sanitize name)).length + 1)).isFun) = true
    · refine ⟨nodeWrites dir (classifyNode n (sanitize name)
          ((f.filter (fun x => x == sanitize name)).length + 1)),
        mUpdate m n.id (nodeEntry n name (classifyNode n (sanitize name)
          ((f.filter (fun x => x == sanitize name)).length + 1))),
        f ++ [sanitize name], c + 1, ?_, ?_⟩ <;>
        simp [processNode, processPure, hn, hcls]
    · refine ⟨[], m, f ++ [sanitize name], c, ?_, ?_⟩ <;>
        simp [processNode, processPure, hn, hcls, applyWrites]

theorem extractCore_eq (dir : String) (nodes : List NodeRec) :
    ∀ (fs : FS) (m : Manifest) (f : List String) (c : Nat),
      extractCore dir nodes ⟨fs, m, f, c⟩ =
        ⟨applyWrites fs (nodes.foldl (processPure dir) ⟨[], m, f, c⟩).ws,
         (nodes.foldl (processPure dir) ⟨[], m, f, c⟩).manifest,
         (nodes.foldl (processPure dir) ⟨[], m, f, c⟩).fileNames,
         (nodes.foldl (processPure dir) ⟨[], m, f, c⟩).count⟩ := by
  induction nodes with
  | nil => intro fs m f c; simp [extractCore, applyWrites]
  | cons n rest ih =>
    intro fs m f c
    have e0 : extractCore dir (n :: rest) ⟨fs, m, f, c⟩ =
        extractCore dir rest (processNode dir ⟨fs, m, f, c⟩ n) := rfl
    have e1 : (n :: rest).foldl (processPure dir) ⟨[], m, f, c⟩ =
        rest.foldl (processPure dir) (processPure dir ⟨[], m, f, c⟩ n) := rfl
    obtain ⟨nw, m2, f2, c2, hpn, hpp⟩ := processNode_processPure dir n fs m f c
    rw [e0, e1, hpn, hpp, ih]
    rw [processPure_fold_shift dir rest nw m2 f2 c2]
    simp [applyWrites_append]

theorem lastWrite_single (p : String) (e : FsEntry) (q : String) :
    lastWrite [(p, e)] q = if p == q then some e else none := rfl

/-- Pointwise characterization of the part_001 extraction: the value at `q`
is the last write of the pass targeting `q`, or nothing when `q` lies below
the wiped directory, or the previous content. -/
theorem fsRead_extractFresh (nodes : List NodeRec) (flowName flowDir : String) (fs : FS)
    (q : String) (hne : nodes ≠ []) :
    fsRead (extractFresh nodes flowName flowDir fs) q =
      (lastWrite (writeSeq (pjoin flowDir flowName) nodes) q).elim
        (if underDir (pjoin flowDir flowName) q then none else fsRead fs q) some := by
  obtain ⟨n, rest, rfl⟩ : ∃ a l, nodes = a :: l := by
    cases nodes with
    | nil => exact absurd rfl hne
    | cons a l => exact ⟨a, l, rfl⟩
  unfold extractFresh
  simp only [List.isEmpty_cons, Bool.false_eq_true, if_false]
  rw [extractCore_eq]
  simp only [writeSeq, passPure]
  by_cases hc :
      (List.foldl (processPure (pjoin flowDir flowName)) ⟨[], [], [], 0⟩ (n :: rest)).count > 0
  · simp only [hc, if_true]
    rw [fsRead_fsWrite, lastWrite_append, lastWrite_single]
    by_cases hq : q = manifestPath (pjoin flowDir flowName)
    · simp [hq]
    · have hne2 : ¬(manifestPath (pjoin flowDir flowName) == q) = true := by
        simp only [beq_iff_eq]
        exact fun hh => hq hh.symm
      rw [if_neg hq, if_neg hne2, Option.elim_none, fsRead_applyWrites, fsRead_fsEraseDir]
  · simp only [hc, if_false]
    rw [fsRead_applyWrites, fsRead_fsEraseDir]
    simp

/-! ## Path lemmas -/

theorem isPrefixOf_append_self (l t : List Char) : l.isPrefixOf (l ++ t) = true := by
  rw [List.isPrefixOf_iff_prefix]
  exact List.prefix_append l t

theorem pjoin_data (a b : String) : (pjoin a b).data = (a ++ "/").data ++ b.data :=
  String.data_append (a ++ "/") b

theorem underDir_pjoin (dir rel : String) : underDir dir (pjoin dir rel) = true := by
  unfold underDir
  rw [pjoin_data]
  exact isPrefixOf_append_self _ _

theorem relUnder_pjoin (dir rel : String) : relUnder dir (pjoin dir rel) = some rel := by
  unfold relUnder
  rw [if_pos (by rw [pjoin_data]; exact isPrefixOf_append_self _ _)]
  rw [pjoin_data, List.drop_left]

theorem relUnder_eq_some {dir q rel : String} (h : relUnder dir q = some rel) :
    q = pjoin dir rel ∧ underDir dir q = true := by
  unfold relUnder at h
  by_cases hp : (dir ++ "/").data.isPrefixOf q.data = true
  · rw [if_pos hp] at h
    obtain ⟨t, ht⟩ : ∃ t, (dir ++ "/").data ++ t = q.data := (List.isPrefixOf_iff_prefix).mp hp
    have hdrop : q.data.drop (dir ++ "/").data.length = t := by
      rw [← ht, List.drop_left]
    have hrel : rel = ⟨t⟩ := by
      cases h
      rw [hdrop]
    constructor
    · apply String.ext
      rw [pjoin_data, hrel, ← ht]
    · exact hp
  · rw [if_neg hp] at h
    cases h

theorem pjoin_right_inj {dir a b : String} (h : pjoin dir a = pjoin dir b) : a = b := by
  have hd := congrArg String.data h
  rw [pjoin_data, pjoin_data] at hd
  exact String.ext (List.append_cancel_left hd)

/-! ## Garbage-collector characterization -/

theorem fsRead_gcFold (dir : String) (m : Manifest) (rels : List String) :
    ∀ (acc : FS) (q : String),
      fsRead (rels.foldl (fun acc file =>
        if strEndsWith file ".manifest.json" then acc
        else if manifestMatches m file then acc
        else fsErase acc (pjoin dir file)) acc) q =
      if rels.any (fun rel =>
          !(strEndsWith rel ".manifest.json") && !(manifestMatches m rel) && (pjoin dir rel == q))
      then none else fsRead acc q := by
  induction rels with
  | nil => intro acc q; simp
  | cons r rest ih =>
    intro acc q
    have e0 : (r :: rest).foldl (fun acc file =>
        if strEndsWith file ".manifest.json" then acc
        else if manifestMatches m file then acc
        else fsErase acc (pjoin dir file)) acc =
      rest.foldl (fun acc file =>
        if strEndsWith file ".manifest.json" then acc
        else if manifestMatches m file then acc
        else fsErase acc (pjoin dir file))
        (if strEndsWith r ".manifest.json" then acc
         else if manifestMatches m r then acc
         else fsErase acc (pjoin dir r)) := rfl
    rw [e0]
    by_cases h1 : strEndsWith r ".manifest.json"
    · rw [if_pos h1, ih]
      simp [h1]
    · by_cases h2 : manifestMatches m r
      · rw [if_neg h1, if_pos h2, ih]
        simp [h1, h2]
      · rw [if_neg h1, if_neg h2, ih, fsRead_fsErase]
        by_cases hrest : rest.any (fun rel =>
            !(strEndsWith rel ".manifest.json") && !(manifestMatches m rel) && (pjoin dir rel == q)) = true
        · simp [hrest]
        · by_cases hq : q = pjoin dir r
          · simp [hq, h1, h2]
          · have : ¬(pjoin dir r == q) = true := by
              simp only [beq_iff_eq]
              exact fun hh => hq hh.symm
            simp [hq, h1, h2, hrest, this]

theorem dirFiles_mem {dir : String} {fs : FS} {rel : String} :
    rel ∈ dirFiles dir fs ↔
      (∃ kv ∈ fs, relUnder dir kv.1 = some rel) ∧ recognizedExt rel = true := by
  unfold dirFiles
  rw [List.mem_filterMap]
  constructor
  · rintro ⟨kv, hkv, hf⟩
    cases hr : relUnder dir kv.1 with
    | none =>
      simp only [hr] at hf
      exact Option.noConfusion hf
    | some r =>
      simp only [hr] at hf
      by_cases he : recognizedExt r = true
      · rw [if_pos he] at hf
        cases hf
        exact ⟨⟨kv, hkv, hr⟩, he⟩
      · rw [if_neg he] at hf
        cases hf
  · rintro ⟨⟨kv, hkv, hr⟩, he⟩
    refine ⟨kv, hkv, ?_⟩
    simp only [hr, if_pos he]

theorem fsRead_isSome_iff {fs : FS} {q : String} :
    (fsRead fs q).isSome = true ↔ ∃ kv ∈ fs, kv.1 = q := by
  unfold fsRead
  constructor
  · intro h
    cases hfind : fs.find? (fun kv => kv.1 == q) with
    | none => rw [hfind] at h; cases h
    | some kv =>
      have hp := List.find?_some hfind
      have hmem := List.mem_of_find?_eq_some hfind
      exact ⟨kv, hmem, by simpa using hp⟩
  · rintro ⟨kv, hkv, hq⟩
    cases hfind : fs.find? (fun kv => kv.1 == q) with
    | none =>
      have := List.find?_eq_none.mp hfind kv hkv
      simp [hq] at this
    | some kv' => simp [hfind]

theorem gc_any_iff (dir : String) (m : Manifest) (fs : FS) (q : String) :
    (dirFiles dir fs).any (fun rel =>
        !(strEndsWith rel ".manifest.json") && !(manifestMatches m rel) && (pjoin dir rel == q)) = true ↔
      gcDeletes dir m q = true ∧ (fsRead fs q).isSome = true := by
  rw [List.any_eq_true]
  constructor
  · rintro ⟨rel, hmem, hcond⟩
    obtain ⟨⟨kv, hkv, hrel⟩, hext⟩ := dirFiles_mem.mp hmem
    simp only [Bool.and_eq_true, Bool.not_eq_true', beq_iff_eq] at hcond
    obtain ⟨⟨hskip, hmatch⟩, hjoin⟩ := hcond
    obtain ⟨hkey, _⟩ := relUnder_eq_some hrel
    have hq : kv.1 = q := by rw [hkey, hjoin]
    constructor
    · unfold gcDeletes
      have hru : relUnder dir q = some rel := by
        rw [← hjoin]
        exact relUnder_pjoin dir rel
      simp only [hru, hext, hskip, hmatch]
      rfl
    · exact fsRead_isSome_iff.mpr ⟨kv, hkv, hq⟩
  · rintro ⟨hgc, hpres⟩
    unfold gcDeletes at hgc
    cases hr : relUnder dir q with
    | none =>
      simp only [hr] at hgc
      exact Bool.noConfusion hgc
    | some rel =>
      simp only [hr] at hgc
      simp only [Bool.and_eq_true, Bool.not_eq_true'] at hgc
      obtain ⟨⟨hext, hskip⟩, hmatch⟩ := hgc
      obtain ⟨kv, hkv, hq⟩ := fsRead_isSome_iff.mp hpres
      obtain ⟨hkey, _⟩ := relUnder_eq_some hr
      refine ⟨rel, dirFiles_mem.mpr ⟨⟨kv, hkv, by rw [hq]; exact hr⟩, hext⟩, ?_⟩
      simp only [Bool.and_eq_true, Bool.not_eq_true', beq_iff_eq]
      exact ⟨⟨hskip, hmatch⟩, hkey.symm⟩

theorem fsRead_cleanup (dir : String) (m : Manifest) (fs : FS) (q : String) :
    fsRead (cleanupUnusedFiles dir m fs) q =
      if gcDeletes dir m q then none else fsRead fs q := by
  unfold cleanupUnusedFiles
  rw [fsRead_gcFold]
  by_cases hany : (dirFiles dir fs).any (fun rel =>
      !(strEndsWith rel ".manifest.json") && !(manifestMatches m rel) && (pjoin dir rel == q)) = true
  · obtain ⟨hgc, _⟩ := (gc_any_iff dir m fs q).mp hany
    rw [if_pos hany, if_pos hgc]
  · rw [if_neg hany]
    by_cases hgc : gcDeletes dir m q = true
    · rw [if_pos hgc]
      by_cases hpres : (fsRead fs q).isSome = true
      · exact absurd ((gc_any_iff dir m fs q).mpr ⟨hgc, hpres⟩) hany
      · cases hread : fsRead fs q with
        | none => rfl
        | some v => exact absurd (by simp [hread]) hpres
    · rw [if_neg hgc]

/-- Pointwise characterization of the functions-templates-handler.js
extraction: the value at `q` is `none` when the garbage collector deletes `q`,
otherwise the last write of the pass targeting `q`, otherwise the previous
content. -/
theorem fsRead_extractWithGC (nodes : List NodeRec) (flowName flowDir : String) (fs : FS)
    (q : String) (hne : nodes ≠ []) :
    fsRead (extractWithGC nodes flowName flowDir fs) q =
      if gcDeletes (pjoin flowDir flowName) (manifestOf (pjoin flowDir flowName) nodes) q then none
      else (lastWrite (writeSeq (pjoin flowDir flowName) nodes) q).elim (fsRead fs q) some := by
  obtain ⟨n, rest, rfl⟩ : ∃ a l, nodes = a :: l := by
    cases nodes with
    | nil => exact absurd rfl hne
    | cons a l => exact ⟨a, l, rfl⟩
  unfold extractWithGC
  simp only [List.isEmpty_cons, Bool.false_eq_true, if_false]
  rw [extractCore_eq, fsRead_cleanup]
  simp only [writeSeq, passPure, manifestOf]
  by_cases hc :
      (List.foldl (processPure (pjoin flowDir flowName)) ⟨[], [], [], 0⟩ (n :: rest)).count > 0
  · simp only [hc, if_true]
    rw [fsRead_fsWrite, lastWrite_append, lastWrite_single]
    by_cases hq : q = manifestPath (pjoin flowDir flowName)
    · simp [hq]
    · have hne2 : ¬(manifestPath (pjoin flowDir flowName) == q) = true := by
        simp only [beq_iff_eq]
        exact fun hh => hq hh.symm
      rw [if_neg hq, if_neg hne2, Option.elim_none, fsRead_applyWrites]
  · simp only [hc, if_false]
    rw [fsRead_applyWrites]
    simp

/-! ## Classification projections and passes with nothing to extract -/

theorem classifyNode_isVue (n : NodeRec) (s : String) (k : Nat) :
    (classifyNode n s k).isVue = isVueNode n := rfl

theorem classifyNode_isFun (n : NodeRec) (s : String) (k : Nat) :
    (classifyNode n s k).isFun = isFunNode n := rfl

theorem fold_no_extract (dir : String) (nodes : List NodeRec)
    (h : ∀ n ∈ nodes, extractable n = false) :
    ∀ (ws : List (String × FsEntry)) (m : Manifest) (f : List String) (c : Nat),
      ∃ f2, nodes.foldl (processPure dir) ⟨ws, m, f, c⟩ = ⟨ws, m, f2, c⟩ := by
  induction nodes with
  | nil => intro ws m f c; exact ⟨f, rfl⟩
  | cons n rest ih =>
    intro ws m f c
    have hn := h n (List.mem_cons_self n rest)
    have hrest : ∀ x ∈ rest, extractable x = false := fun x hx => h x (List.mem_cons_of_mem n hx)
    have e0 : (n :: rest).foldl (processPure dir) ⟨ws, m, f, c⟩ =
        rest.foldl (processPure dir) (processPure dir ⟨ws, m, f, c⟩ n) := rfl
    cases hraw : rawName n with
    | none =>
      have hstep : processPure dir ⟨ws, m, f, c⟩ n = ⟨ws, m, f, c⟩ := by
        simp [processPure, hraw]
      obtain ⟨f2, hf⟩ := ih hrest ws m f c
      exact ⟨f2, by rw [e0, hstep, hf]⟩
    | some name =>
      have hcls : (isVueNode n || isFunNode n) = false := by
        unfold extractable at hn
        rw [hraw] at hn
        simpa using hn
      have hstep : processPure dir ⟨ws, m, f, c⟩ n = ⟨ws, m, f ++ [sanitize name], c⟩ := by
        simp [processPure, hraw, classifyNode_isVue, classifyNode_isFun, hcls]
      obtain ⟨f2, hf⟩ := ih hrest ws m (f ++ [sanitize name]) c
      exact ⟨f2, by rw [e0, hstep, hf]⟩

theorem writeSeq_no_extract (dir : String) (nodes : List NodeRec)
    (h : ∀ n ∈ nodes, extractable n = false) : writeSeq dir nodes = [] := by
  obtain ⟨f2, hfold⟩ := fold_no_extract dir nodes h [] [] [] 0
  unfold writeSeq passPure
  rw [hfold]
  simp

/-! ## Claim C4 -/

/-- C4 (amended): in the part_001 variant, for every previously extracted
state, an extraction pass over a non-empty node list in which no node remains
extractable leaves nothing below the entity's Extraction Directory: the
directory, its side files and its manifest file are all deleted. -/
theorem c4_fresh_deletes_dir (nodes : List NodeRec) (flowName flowDir : String) (fs : FS)
    (hne : nodes ≠ []) (hnoext : ∀ n ∈ nodes, extractable n = false) (q : String)
    (hq : underDir (pjoin flowDir flowName) q = true) :
    fsRead (extractFresh nodes flowName flowDir fs) q = none := by
  rw [fsRead_extractFresh nodes flowName flowDir fs q hne,
    writeSeq_no_extract (pjoin flowDir flowName) nodes hnoext]
  simp [lastWrite, hq]

/-- C4 (counterexample): in the functions-templates-handler.js variant, after
extracting one function node and then re-running over a list whose only node
is no longer extractable, the old `.manifest.json` file is still present (the
garbage collector explicitly skips it and never removes the directory), so the
claimed deletion of directory and manifest does not happen. -/
theorem c4_counterexample :
    fsRead
      (extractWithGC [⟨"A", "function", some "Foo", none, none, none, none, none⟩] "flow" "d"
        (extractWithGC [mkFunNode "A" "Foo" "a"] "flow" "d" []))
      (manifestPath (pjoin "d" "flow")) ≠ none := by decide

/-- C4 (witness for the amended theorem). -/
theorem c4_witness :
    fsRead (extractFresh [⟨"A", "function", some "Foo", none, none, none, none, none⟩] "flow" "d"
      (extractFresh [mkFunNode "A" "Foo" "a"] "flow" "d" []))
      (manifestPath (pjoin "d" "flow")) = none :=
  c4_fresh_deletes_dir _ _ _ _ (by decide) (by decide) _ (by decide)

/-! ## Claim C6 -/

/-- C6: extraction is idempotent in both variants: running the same pass twice
over an unchanged node list leaves the filesystem of the second run pointwise
identical to that of the first (same manifest file, same side files, nothing
extra deleted by the second run's cleanup). -/
theorem c6_extract_idempotent (nodes : List NodeRec) (flowName flowDir : String) (fs : FS)
    (q : String) :
    fsRead (extractFresh nodes flowName flowDir (extractFresh nodes flowName flowDir fs)) q =
      fsRead (extractFresh nodes flowName flowDir fs) q ∧
    fsRead (extractWithGC nodes flowName flowDir (extractWithGC nodes flowName flowDir fs)) q =
      fsRead (extractWithGC nodes flowName flowDir fs) q := by
  by_cases hne : nodes = []
  · subst hne
    exact ⟨rfl, rfl⟩
  · constructor
    · rw [fsRead_extractFresh _ _ _ _ _ hne, fsRead_extractFresh _ _ _ _ _ hne]
      cases hlw : lastWrite (writeSeq (pjoin flowDir flowName) nodes) q with
      | some e => rfl
      | none =>
        simp only [Option.elim_none]
        by_cases hu : underDir (pjoin flowDir flowName) q = true
        · simp [hu]
        · simp only [hu, Bool.false_eq_true, if_false]
    · rw [fsRead_extractWithGC _ _ _ _ _ hne, fsRead_extractWithGC _ _ _ _ _ hne]
      by_cases hgc : gcDeletes (pjoin flowDir flowName) (manifestOf (pjoin flowDir flowName) nodes) q = true
      · simp [hgc]
      · simp only [hgc, Bool.false_eq_true, if_false]
        cases hlw : lastWrite (writeSeq (pjoin flowDir flowName) nodes) q with
        | some e => rfl
        | none =>
          simp only [Option.elim_none]

/-! ## Claim C7 -/

/-- C7: when the manifest file exists but does not parse as a manifest,
restoration returns the input node list unchanged (after a logged warning);
it neither mutates a node nor propagates an error. -/
theorem c7_malformed_manifest (nodes : List NodeRec) (flowName flowDir : String) (fs : FS)
    (s : String)
    (h : fsRead fs (manifestPath (pjoin flowDir flowName)) = some (FsEntry.text s)) :
    restoreFunctionsAndTemplates nodes flowName flowDir fs = nodes := by
  unfold restoreFunctionsAndTemplates
  by_cases hne : nodes.isEmpty = true
  · rw [if_pos hne]
  · rw [if_neg hne]
    simp only [h]

/-- C7 (witness). -/
theorem c7_witness :
    restoreFunctionsAndTemplates [mkFunNode "1" "Foo" "a"] "flow" "d"
      [(manifestPath (pjoin "d" "flow"), FsEntry.text "not json")] = [mkFunNode "1" "Foo" "a"] :=
  c7_malformed_manifest _ _ _ _ "not json" (by decide)

/-! ## Claim C9 -/

/-- C9: the part_001 extraction starts a non-empty pass by recursively
deleting the Extraction Directory, so every path below the directory that the
pass does not itself rewrite reads as absent afterwards — including the old
manifest and manually added files, and also when the pass extracts nothing. -/
theorem c9_fresh_predeletes (nodes : List NodeRec) (flowName flowDir : String) (fs : FS)
    (q : String) (hne : nodes ≠ []) (hq : underDir (pjoin flowDir flowName) q = true)
    (hw : lastWrite (writeSeq (pjoin flowDir flowName) nodes) q = none) :
    fsRead (extractFresh nodes flowName flowDir fs) q = none := by
  rw [fsRead_extractFresh nodes flowName flowDir fs q hne, hw]
  simp [hq]

/-- C9 (witness): a manually added file below the directory is destroyed by a
pass that extracts nothing. -/
theorem c9_witness :
    fsRead (extractFresh [⟨"A", "function", some "Foo", none, none, none, none, none⟩] "flow" "d"
      [("d/flow/manual.txt", FsEntry.text "x")]) "d/flow/manual.txt" = none :=
  c9_fresh_predeletes _ _ _ _ _ (by decide) (by decide) (by decide)

/-! ## Last-character tools for distinguishing side-file names -/

theorem lastWrite_eq_none {ws : List (String × FsEntry)} {q : String}
    (h : ∀ w ∈ ws, ¬(w.1 = q)) : lastWrite ws q = none := by
  induction ws with
  | nil => rfl
  | cons w rest ih =>
    rw [lastWrite_cons, ih (fun u hu => h u (List.mem_cons_of_mem w hu))]
    simp [beq_eq_false_iff_ne.mpr (h w (List.mem_cons_self w rest))]

theorem elim_none_of_nowrite {ws : List (String × FsEntry)} {q : String} {base : Option FsEntry}
    (h : ∀ w ∈ ws, ¬(w.1 = q)) (hbase : base = none) :
    (lastWrite ws q).elim base some = none := by
  rw [lastWrite_eq_none h, hbase]
  rfl

theorem str_ne_of_last {t u : String} {x y : Char} {xs ys : List Char}
    (ht : t.data.reverse = x :: xs) (hu2 : u.data.reverse = y :: ys) (hxy : x ≠ y) : t ≠ u := by
  intro h
  subst h
  rw [ht] at hu2
  cases hu2
  exact hxy rfl

theorem suffix_data_reverse (a b : String) {y : Char} {ys : List Char}
    (hb : b.data.reverse = y :: ys) : (a ++ b).data.reverse = y :: (ys ++ a.data.reverse) := by
  rw [String.data_append, List.reverse_append, hb]
  rfl

theorem pjoin_suffix_reverse (d x b : String) {y : Char} {ys : List Char}
    (hb : b.data.reverse = y :: ys) :
    (pjoin d (x ++ b)).data.reverse = y :: (ys ++ (x.data.reverse ++ (d ++ "/").data.reverse)) := by
  rw [pjoin_data, List.reverse_append, String.data_append, List.reverse_append, hb]
  simp

theorem strEndsWith_rev_cons {q b : String} {y : Char} {ys : List Char}
    (h : strEndsWith q b = true) (hb : b.data.reverse = y :: ys) :
    ∃ l, q.data.reverse = y :: l := by
  unfold strEndsWith at h
  rw [hb] at h
  cases hq : q.data.reverse with
  | nil =>
    rw [hq] at h
    simp [List.isPrefixOf] at h
  | cons c cs =>
    rw [hq] at h
    simp only [List.isPrefixOf, Bool.and_eq_true, beq_iff_eq] at h
    exact ⟨cs, by rw [h.1]⟩

/-- Marker containment forces a non-empty haystack. -/
theorem listHasSub_ne_nil {pat l : List Char} (h : listHasSub pat l = true) (hp : pat ≠ []) :
    l ≠ [] := by
  intro hl
  subst hl
  cases pat with
  | nil => exact hp rfl
  | cons c cs => simp [listHasSub, List.isPrefixOf] at h

theorem strAppend_assoc (a b c : String) : (a ++ b) ++ c = a ++ (b ++ c) := by
  apply String.ext
  simp [String.data_append]

theorem strDotVue : ("." : String) ++ "vue" = ".vue" := by decide

theorem rev_vue : (".vue" : String).data.reverse = 'e' :: ['u', 'v', '.'] := by decide

theorem rev_js : (".js" : String).data.reverse = 's' :: ['j', '.'] := by decide

theorem rev_infomd : (".info.md" : String).data.reverse =
    'd' :: ['m', '.', 'o', 'f', 'n', 'i', '.'] := by decide

theorem rev_initjs : (".initialize.js" : String).data.reverse =
    's' :: ['j', '.', 'e', 'z', 'i', 'l', 'a', 'i', 't', 'i', 'n', 'i', '.'] := by decide

theorem rev_finjs : (".finalize.js" : String).data.reverse =
    's' :: ['j', '.', 'e', 'z', 'i', 'l', 'a', 'n', 'i', 'f', '.'] := by decide

theorem rev_manifest : (".manifest.json" : String).data.reverse =
    'n' :: ['o', 's', 'j', '.', 't', 's', 'e', 'f', 'i', 'n', 'a', 'm', '.'] := by decide

/-! ## Claim C10 -/

/-- C10: markup detection ignores the node's `type`: a `function` node whose
`format` contains `<template>` or `<script>` is classified as Vue — its
`format` is written to the `.vue` file, its manifest entry records
`isVue = true`, `isFun = false` with no initialize/finalize flags, and the
pass writes no `.initialize.js` or `.finalize.js` file below the directory. -/
theorem c10_markup_beats_type (node : NodeRec) (flowName flowDir : String) (fs : FS) (s : String)
    (htype : node.type = "function") (hfmt : node.format = some s)
    (hmk : (strContains (strTrim s) "<template>" || strContains (strTrim s) "<script>") = true) :
    (manifestOf (pjoin flowDir flowName) [node]).map
        (fun kv => (kv.1, kv.2.isVue, kv.2.isFun, kv.2.hasCode, kv.2.hasInit, kv.2.hasFin)) =
      [(node.id, true, false, true, false, false)] ∧
    fsRead (extractFresh [node] flowName flowDir fs)
        (pjoin (pjoin flowDir flowName) (sanitize (jsOr node.name "unnamed-function") ++ ".vue")) =
      some (FsEntry.text s) ∧
    (∀ q : String, underDir (pjoin flowDir flowName) q = true →
      strEndsWith q ".initialize.js" = true →
      fsRead (extractFresh [node] flowName flowDir fs) q = none) ∧
    (∀ q : String, underDir (pjoin flowDir flowName) q = true →
      strEndsWith q ".finalize.js" = true →
      fsRead (extractFresh [node] flowName flowDir fs) q = none) := by
  have hv : isVueNode node = true := by
    unfold isVueNode
    rw [hfmt]
    exact hmk
  have hfun : isFunNode node = false := by
    unfold isFunNode
    rw [hv]
    simp
  have hraw : rawName node = some (jsOr node.name "unnamed-function") := by
    simp [rawName, htype]
  have htrimne : (strTrim s).data ≠ [] := by
    have hmk2 : strContains (strTrim s) "<template>" = true ∨
        strContains (strTrim s) "<script>" = true := by simpa using hmk
    rcases hmk2 with h | h
    · exact listHasSub_ne_nil h (by decide)
    · exact listHasSub_ne_nil h (by decide)
  have hsde : s.data ≠ [] := by
    intro h
    exact htrimne (by simp [strTrim, h])
  have hblank : isBlankOpt (some s) = false := by
    simp [isBlankOpt, jsOr, List.isEmpty_iff, hsde, htrimne]
  have hbnone : isBlankOpt none = true := by decide
  have hclass : classifyNode node (sanitize (jsOr node.name "unnamed-function")) 1 =
      { sanitizedName := sanitize (jsOr node.name "unnamed-function")
        fileName := sanitize (jsOr node.name "unnamed-function")
        isVue := true
        isFun := false
        code := some s
        initCode := none
        finCode := none
        info := if isBlankOpt node.info then none else node.info } := by
    unfold classifyNode
    rw [hv, hfun, hfmt]
    simp [hblank, hbnone]
  have hpass : passPure (pjoin flowDir flowName) [node] =
      ⟨nodeWrites (pjoin flowDir flowName)
          (classifyNode node (sanitize (jsOr node.name "unnamed-function")) 1),
        [(node.id, nodeEntry node (jsOr node.name "unnamed-function")
          (classifyNode node (sanitize (jsOr node.name "unnamed-function")) 1))],
        [sanitize (jsOr node.name "unnamed-function")], 1⟩ := by
    unfold passPure
    simp [processPure, hraw, classifyNode_isVue, classifyNode_isFun, hv, hfun, mUpdate]
  have hws : writeSeq (pjoin flowDir flowName) [node] =
      (pjoin (pjoin flowDir flowName) (sanitize (jsOr node.name "unnamed-function") ++ ".vue"),
        FsEntry.text s) ::
      ((match (if isBlankOpt node.info then none else node.info : Option String) with
        | some t => [(pjoin (pjoin flowDir flowName)
            (sanitize (jsOr node.name "unnamed-function") ++ ".info.md"), FsEntry.text t)]
        | none => []) ++
       [(manifestPath (pjoin flowDir flowName),
         FsEntry.mf [(node.id, nodeEntry node (jsOr node.name "unnamed-function")
           (classifyNode node (sanitize (jsOr node.name "unnamed-function")) 1))])]) := by
    unfold writeSeq
    rw [hpass]
    dsimp only
    rw [if_pos Nat.zero_lt_one, hclass]
    unfold nodeWrites
    dsimp only
    simp [strAppend_assoc, strDotVue]
  refine ⟨?_, ?_, ?_, ?_⟩
  · unfold manifestOf
    rw [hpass]
    simp [nodeEntry, hclass]
  · rw [fsRead_extractFresh _ _ _ _ _ (by simp), hws]
    rw [lastWrite_cons]
    have hnot : lastWrite
        ((match (if isBlankOpt node.info then none else node.info : Option String) with
          | some t => [(pjoin (pjoin flowDir flowName)
              (sanitize (jsOr node.name "unnamed-function") ++ ".info.md"), FsEntry.text t)]
          | none => []) ++
         [(manifestPath (pjoin flowDir flowName),
           FsEntry.mf [(node.id, nodeEntry node (jsOr node.name "unnamed-function")
             (classifyNode node (sanitize (jsOr node.name "unnamed-function")) 1))])])
        (pjoin (pjoin flowDir flowName)
          (sanitize (jsOr node.name "unnamed-function") ++ ".vue")) = none := by
      apply lastWrite_eq_none
      intro w hw
      rw [List.mem_append] at hw
      rcases hw with hw | hw
      · cases hinfo : (if isBlankOpt node.info then none else node.info : Option String) with
        | none => rw [hinfo] at hw; cases hw
        | some t =>
          rw [hinfo] at hw
          cases hw with
          | head =>
            apply str_ne_of_last (pjoin_suffix_reverse _ _ _ rev_infomd)
              (pjoin_suffix_reverse _ _ _ rev_vue)
            decide
          | tail _ hmem => cases hmem
      · cases hw with
        | head =>
          apply str_ne_of_last
            (suffix_data_reverse (pjoin flowDir flowName ++ "/") ".manifest.json" rev_manifest)
            (pjoin_suffix_reverse _ _ _ rev_vue)
          decide
        | tail _ hmem => cases hmem
    rw [hnot]
    simp
  · intro q hq hqe
    rw [fsRead_extractFresh _ _ _ _ _ (by simp), hws]
    obtain ⟨l, hl⟩ := strEndsWith_rev_cons hqe rev_initjs
    apply elim_none_of_nowrite
    · intro w hw
      rcases List.mem_cons.mp hw with heq | hw
      · subst heq
        exact str_ne_of_last (pjoin_suffix_reverse _ _ _ rev_vue) hl (by decide)
      · rw [List.mem_append] at hw
        rcases hw with hw | hw
        · cases hinfo : (if isBlankOpt node.info then none else node.info : Option String) with
          | none => rw [hinfo] at hw; cases hw
          | some t =>
            rw [hinfo] at hw
            cases hw with
            | head => exact str_ne_of_last (pjoin_suffix_reverse _ _ _ rev_infomd) hl (by decide)
            | tail _ hmem => cases hmem
        · cases hw with
          | head =>
            exact str_ne_of_last
              (suffix_data_reverse (pjoin flowDir flowName ++ "/") ".manifest.json" rev_manifest)
              hl (by decide)
          | tail _ hmem => cases hmem
    · simp [hq]
  · intro q hq hqe
    rw [fsRead_extractFresh _ _ _ _ _ (by simp), hws]
    obtain ⟨l, hl⟩ := strEndsWith_rev_cons hqe rev_finjs
    apply elim_none_of_nowrite
    · intro w hw
      rcases List.mem_cons.mp hw with heq | hw
      · subst heq
        exact str_ne_of_last (pjoin_suffix_reverse _ _ _ rev_vue) hl (by decide)
      · rw [List.mem_append] at hw
        rcases hw with hw | hw
        · cases hinfo : (if isBlankOpt node.info then none else node.info : Option String) with
          | none => rw [hinfo] at hw; cases hw
          | some t =>
            rw [hinfo] at hw
            cases hw with
            | head => exact str_ne_of_last (pjoin_suffix_reverse _ _ _ rev_infomd) hl (by decide)
            | tail _ hmem => cases hmem
        · cases hw with
          | head =>
            exact str_ne_of_last
              (suffix_data_reverse (pjoin flowDir flowName ++ "/") ".manifest.json" rev_manifest)
              hl (by decide)
          | tail _ hmem => cases hmem
    · simp [hq]

/-- C10 (witness). -/
theorem c10_witness :
    (manifestOf (pjoin "d" "flow") [⟨"9", "function", some "W", some "x",
        some "<template><p/></template>", none, none, none⟩]).map
        (fun kv => (kv.1, kv.2.isVue, kv.2.isFun, kv.2.hasCode, kv.2.hasInit, kv.2.hasFin)) =
      [("9", true, false, true, false, false)] ∧
    fsRead (extractFresh [⟨"9", "function", some "W", some "x",
        some "<template><p/></template>", none, none, none⟩] "flow" "d" [])
        (pjoin (pjoin "d" "flow") (sanitize (jsOr (some "W") "unnamed-function") ++ ".vue")) =
      some (FsEntry.text "<template><p/></template>") := by
  have h := c10_markup_beats_type
    ⟨"9", "function", some "W", some "x", some "<template><p/></template>", none, none, none⟩
    "flow" "d" [] "<template><p/></template>" (by decide) (by decide) (by decide)
  exact ⟨h.1, h.2.1⟩

/-! ## Per-field behaviour of the restoration update blocks -/

theorem updCode_keeps (dir : String) (fs : FS) (item : ManifestEntry) (n : NodeRec) :
    (updCode dir fs item n).id = n.id ∧ (updCode dir fs item n).initCode = n.initCode ∧
    (updCode dir fs item n).finCode = n.finCode ∧ (updCode dir fs item n).info = n.info := by
  unfold updCode
  cases (if item.hasCode then
      readText fs (pjoin dir (item.fileName ++ "." ++ (if item.isVue then "vue" else "js")))
    else none) with
  | none => exact ⟨rfl, rfl, rfl, rfl⟩
  | some c =>
    by_cases hv : item.isVue = true
    · by_cases hf : n.format == some c
      · simp [hv, hf]
      · simp [hv, hf]
    · by_cases hf2 : item.isFun = true
      · by_cases hc : n.func == some c
        · simp [hv, hf2, hc]
        · simp [hv, hf2, hc]
      · simp [hv, hf2]

theorem updInit_keeps (dir : String) (fs : FS) (item : ManifestEntry) (n : NodeRec) :
    (updInit dir fs item n).id = n.id ∧ (updInit dir fs item n).func = n.func ∧
    (updInit dir fs item n).format = n.format ∧ (updInit dir fs item n).finCode = n.finCode ∧
    (updInit dir fs item n).info = n.info := by
  unfold updInit
  cases (if item.hasInit then readText fs (pjoin dir (item.fileName ++ ".initialize.js"))
    else none) with
  | none => exact ⟨rfl, rfl, rfl, rfl, rfl⟩
  | some c =>
    by_cases h : n.initCode == some c
    · simp [h]
    · simp [h]

theorem updFin_keeps (dir : String) (fs : FS) (item : ManifestEntry) (n : NodeRec) :
    (updFin dir fs item n).id = n.id ∧ (updFin dir fs item n).func = n.func ∧
    (updFin dir fs item n).format = n.format ∧ (updFin dir fs item n).initCode = n.initCode ∧
    (updFin dir fs item n).info = n.info := by
  unfold updFin
  cases (if item.hasFin then readText fs (pjoin dir (item.fileName ++ ".finalize.js"))
    else none) with
  | none => exact ⟨rfl, rfl, rfl, rfl, rfl⟩
  | some c =>
    by_cases h : n.finCode == some c
    · simp [h]
    · simp [h]

theorem updInfo_keeps (dir : String) (fs : FS) (item : ManifestEntry) (n : NodeRec) :
    (updInfo dir fs item n).id = n.id ∧ (updInfo dir fs item n).func = n.func ∧
    (updInfo dir fs item n).format = n.format ∧ (updInfo dir fs item n).initCode = n.initCode ∧
    (updInfo dir fs item n).finCode = n.finCode := by
  unfold updInfo
  cases (if item.hasInfo then readText fs (pjoin dir (item.fileName ++ ".info.md"))
    else none) with
  | none => exact ⟨rfl, rfl, rfl, rfl, rfl⟩
  | some c =>
    by_cases h : n.info == some c
    · simp [h]
    · simp [h]

theorem updCode_noop (dir : String) (fs : FS) (item : ManifestEntry) (n : NodeRec)
    (h : item.hasCode = true →
      readText fs (pjoin dir (item.fileName ++ "." ++ (if item.isVue then "vue" else "js"))) = none) :
    updCode dir fs item n = n := by
  unfold updCode
  cases hc : item.hasCode with
  | false => simp
  | true => simp [h hc]

theorem updInit_noop (dir : String) (fs : FS) (item : ManifestEntry) (n : NodeRec)
    (h : item.hasInit = true →
      readText fs (pjoin dir (item.fileName ++ ".initialize.js")) = none) :
    updInit dir fs item n = n := by
  unfold updInit
  cases hc : item.hasInit with
  | false => simp
  | true => simp [h hc]

theorem updFin_noop (dir : String) (fs : FS) (item : ManifestEntry) (n : NodeRec)
    (h : item.hasFin = true →
      readText fs (pjoin dir (item.fileName ++ ".finalize.js")) = none) :
    updFin dir fs item n = n := by
  unfold updFin
  cases hc : item.hasFin with
  | false => simp
  | true => simp [h hc]

theorem updInfo_noop (dir : String) (fs : FS) (item : ManifestEntry) (n : NodeRec)
    (h : item.hasInfo = true →
      readText fs (pjoin dir (item.fileName ++ ".info.md")) = none) :
    updInfo dir fs item n = n := by
  unfold updInfo
  cases hc : item.hasInfo with
  | false => simp
  | true => simp [h hc]

theorem updateNode_id (dir : String) (fs : FS) (item : ManifestEntry) (n : NodeRec) :
    (updateNode dir fs item n).id = n.id := by
  unfold updateNode
  rw [(updInfo_keeps dir fs item _).1, (updFin_keeps dir fs item _).1,
    (updInit_keeps dir fs item _).1, (updCode_keeps dir fs item n).1]

theorem updateNode_finCode (dir : String) (fs : FS) (item : ManifestEntry) (n : NodeRec)
    (h : item.hasFin = true →
      readText fs (pjoin dir (item.fileName ++ ".finalize.js")) = none) :
    (updateNode dir fs item n).finCode = n.finCode := by
  unfold updateNode
  rw [(updInfo_keeps dir fs item _).2.2.2.2, updFin_noop dir fs item _ h,
    (updInit_keeps dir fs item _).2.2.2.1, (updCode_keeps dir fs item n).2.2.1]

theorem updateNode_initCode (dir : String) (fs : FS) (item : ManifestEntry) (n : NodeRec)
    (h : item.hasInit = true →
      readText fs (pjoin dir (item.fileName ++ ".initialize.js")) = none) :
    (updateNode dir fs item n).initCode = n.initCode := by
  unfold updateNode
  rw [(updInfo_keeps dir fs item _).2.2.2.1, (updFin_keeps dir fs item _).2.2.2.1,
    updInit_noop dir fs item _ h, (updCode_keeps dir fs item n).2.1]

theorem updateNode_info (dir : String) (fs : FS) (item : ManifestEntry) (n : NodeRec)
    (h : item.hasInfo = true →
      readText fs (pjoin dir (item.fileName ++ ".info.md")) = none) :
    (updateNode dir fs item n).info = n.info := by
  unfold updateNode
  rw [updInfo_noop dir fs item _ h, (updFin_keeps dir fs item _).2.2.2.2,
    (updInit_keeps dir fs item _).2.2.2.2, (updCode_keeps dir fs item n).2.2.2]

theorem updateNode_code (dir : String) (fs : FS) (item : ManifestEntry) (n : NodeRec)
    (h : item.hasCode = true →
      readText fs (pjoin dir (item.fileName ++ "." ++ (if item.isVue then "vue" else "js"))) = none) :
    (updateNode dir fs item n).func = n.func ∧ (updateNode dir fs item n).format = n.format := by
  unfold updateNode
  rw [(updInfo_keeps dir fs item _).2.1, (updFin_keeps dir fs item _).2.1,
    (updInit_keeps dir fs item _).2.1, (updInfo_keeps dir fs item _).2.2.1,
    (updFin_keeps dir fs item _).2.2.1, (updInit_keeps dir fs item _).2.2.1,
    updCode_noop dir fs item n h]
  exact ⟨rfl, rfl⟩

theorem updateFirst_length (l : List NodeRec) (id : String) (f : NodeRec → NodeRec) :
    (updateFirst l id f).length = l.length := by
  induction l with
  | nil => rfl
  | cons n rest ih =>
    unfold updateFirst
    by_cases h : n.id == id
    · simp [h]
    · simp [h, ih]

theorem updateFirst_getD (l : List NodeRec) (id : String) (f : NodeRec → NodeRec) (k : Nat)
    (d : NodeRec) :
    (updateFirst l id f).getD k d = l.getD k d ∨
      ((l.getD k d).id = id ∧ (updateFirst l id f).getD k d = f (l.getD k d)) := by
  induction l generalizing k with
  | nil => exact Or.inl rfl
  | cons n rest ih =>
    unfold updateFirst
    by_cases h : n.id == id
    · rw [if_pos h]
      cases k with
      | zero => exact Or.inr ⟨by simpa using h, rfl⟩
      | succ k2 => exact Or.inl rfl
    · rw [if_neg h]
      cases k with
      | zero => exact Or.inl rfl
      | succ k2 =>
        rcases ih k2 with h2 | ⟨hid, h2⟩
        · exact Or.inl (by simpa using h2)
        · exact Or.inr ⟨by simpa using hid, by simpa using h2⟩

/-- Invariant of the restoration fold: length and node ids are preserved, and
each of the four fields of the node at position `i` is preserved whenever
every manifest entry targeting that node's id that flags the field has its
side file missing. -/
theorem restore_fold_fields (dir : String) (fs : FS) (m : Manifest) (i : Nat) (d : NodeRec) :
    ∀ acc : List NodeRec,
      (m.foldl (fun a kv => updateFirst a kv.1 (updateNode dir fs kv.2)) acc).length = acc.length ∧
      ((m.foldl (fun a kv => updateFirst a kv.1 (updateNode dir fs kv.2)) acc).getD i d).id =
        (acc.getD i d).id ∧
      ((∀ kv ∈ m, kv.1 = (acc.getD i d).id → kv.2.hasFin = true →
          readText fs (pjoin dir (kv.2.fileName ++ ".finalize.js")) = none) →
        ((m.foldl (fun a kv => updateFirst a kv.1 (updateNode dir fs kv.2)) acc).getD i d).finCode =
          (acc.getD i d).finCode) ∧
      ((∀ kv ∈ m, kv.1 = (acc.getD i d).id → kv.2.hasInit = true →
          readText fs (pjoin dir (kv.2.fileName ++ ".initialize.js")) = none) →
        ((m.foldl (fun a kv => updateFirst a kv.1 (updateNode dir fs kv.2)) acc).getD i d).initCode =
          (acc.getD i d).initCode) ∧
      ((∀ kv ∈ m, kv.1 = (acc.getD i d).id → kv.2.hasInfo = true →
          readText fs (pjoin dir (kv.2.fileName ++ ".info.md")) = none) →
        ((m.foldl (fun a kv => updateFirst a kv.1 (updateNode dir fs kv.2)) acc).getD i d).info =
          (acc.getD i d).info) ∧
      ((∀ kv ∈ m, kv.1 = (acc.getD i d).id → kv.2.hasCode = true →
          readText fs (pjoin dir (kv.2.fileName ++ "." ++ (if kv.2.isVue then "vue" else "js"))) = none) →
        ((m.foldl (fun a kv => updateFirst a kv.1 (updateNode dir fs kv.2)) acc).getD i d).func =
            (acc.getD i d).func ∧
          ((m.foldl (fun a kv => updateFirst a kv.1 (updateNode dir fs kv.2)) acc).getD i d).format =
            (acc.getD i d).format) := by
  induction m with
  | nil => intro acc; exact ⟨rfl, rfl, fun _ => rfl, fun _ => rfl, fun _ => rfl, fun _ => ⟨rfl, rfl⟩⟩
  | cons kv rest ih =>
    intro acc
    have e0 : (kv :: rest).foldl (fun a kv => updateFirst a kv.1 (updateNode dir fs kv.2)) acc =
        rest.foldl (fun a kv => updateFirst a kv.1 (updateNode dir fs kv.2))
          (updateFirst acc kv.1 (updateNode dir fs kv.2)) := rfl
    obtain ⟨ihlen, ihid, ihfin, ihinit, ihinfo, ihcode⟩ :=
      ih (updateFirst acc kv.1 (updateNode dir fs kv.2))
    have hid1 : ((updateFirst acc kv.1 (updateNode dir fs kv.2)).getD i d).id = (acc.getD i d).id := by
      rcases updateFirst_getD acc kv.1 (updateNode dir fs kv.2) i d with h | ⟨_, h⟩
      · rw [h]
      · rw [h, updateNode_id]
    refine ⟨?_, ?_, ?_, ?_, ?_, ?_⟩
    · rw [e0, ihlen, updateFirst_length]
    · rw [e0, ihid, hid1]
    · intro hyp
      rw [e0]
      have hstep : ((updateFirst acc kv.1 (updateNode dir fs kv.2)).getD i d).finCode =
          (acc.getD i d).finCode := by
        rcases updateFirst_getD acc kv.1 (updateNode dir fs kv.2) i d with h | ⟨hidm, h⟩
        · rw [h]
        · rw [h]
          exact updateNode_finCode dir fs kv.2 _
            (hyp kv (List.mem_cons_self kv rest) hidm.symm)
      rw [ihfin (fun u hu hid2 => hyp u (List.mem_cons_of_mem kv hu) (by rw [← hid1, hid2])),
        hstep]
    · intro hyp
      rw [e0]
      have hstep : ((updateFirst acc kv.1 (updateNode dir fs kv.2)).getD i d).initCode =
          (acc.getD i d).initCode := by
        rcases updateFirst_getD acc kv.1 (updateNode dir fs kv.2) i d with h | ⟨hidm, h⟩
        · rw [h]
        · rw [h]
          exact updateNode_initCode dir fs kv.2 _
            (hyp kv (List.mem_cons_self kv rest) hidm.symm)
      rw [ihinit (fun u hu hid2 => hyp u (List.mem_cons_of_mem kv hu) (by rw [← hid1, hid2])),
        hstep]
    · intro hyp
      rw [e0]
      have hstep : ((updateFirst acc kv.1 (updateNode dir fs kv.2)).getD i d).info =
          (acc.getD i d).info := by
        rcases updateFirst_getD acc kv.1 (updateNode dir fs kv.2) i d with h | ⟨hidm, h⟩
        · rw [h]
        · rw [h]
          exact updateNode_info dir fs kv.2 _
            (hyp kv (List.mem_cons_self kv rest) hidm.symm)
      rw [ihinfo (fun u hu hid2 => hyp u (List.mem_cons_of_mem kv hu) (by rw [← hid1, hid2])),
        hstep]
    · intro hyp
      rw [e0]
      have hstep : ((updateFirst acc kv.1 (updateNode dir fs kv.2)).getD i d).func =
            (acc.getD i d).func ∧
          ((updateFirst acc kv.1 (updateNode dir fs kv.2)).getD i d).format =
            (acc.getD i d).format := by
        rcases updateFirst_getD acc kv.1 (updateNode dir fs kv.2) i d with h | ⟨hidm, h⟩
        · rw [h]
          exact ⟨rfl, rfl⟩
        · rw [h]
          exact updateNode_code dir fs kv.2 _
            (hyp kv (List.mem_cons_self kv rest) hidm.symm)
      obtain ⟨hrest1, hrest2⟩ :=
        ihcode (fun u hu hid2 => hyp u (List.mem_cons_of_mem kv hu) (by rw [← hid1, hid2]))
      exact ⟨hrest1.trans hstep.1, hrest2.trans hstep.2⟩

/-! ## Claim C8 -/

/-- C8: restoration never clears a field whose flagged side file is missing:
for every node position, if every manifest entry targeting that node's id that
sets `hasFinalize` (resp. `hasInitialize`, `hasInfo`, `hasCode`) has its side
file absent on disk, then that node's `finalize` (resp. `initialize`, `info`,
`func`/`format`) field is returned exactly as it was; node ids and the list
length are preserved unconditionally, and restoration is total (no throw). -/
theorem c8_missing_file_tolerance (nodes : List NodeRec) (flowName flowDir : String) (fs : FS)
    (m : Manifest)
    (hm : fsRead fs (manifestPath (pjoin flowDir flowName)) = some (FsEntry.mf m))
    (i : Nat) :
    (restoreFunctionsAndTemplates nodes flowName flowDir fs).length = nodes.length ∧
    ((restoreFunctionsAndTemplates nodes flowName flowDir fs).getD i noNode).id =
      (nodes.getD i noNode).id ∧
    ((∀ kv ∈ m, kv.1 = (nodes.getD i noNode).id → kv.2.hasFin = true →
        fsRead fs (pjoin (pjoin flowDir flowName) (kv.2.fileName ++ ".finalize.js")) = none) →
      ((restoreFunctionsAndTemplates nodes flowName flowDir fs).getD i noNode).finCode =
        (nodes.getD i noNode).finCode) ∧
    ((∀ kv ∈ m, kv.1 = (nodes.getD i noNode).id → kv.2.hasInit = true →
        fsRead fs (pjoin (pjoin flowDir flowName) (kv.2.fileName ++ ".initialize.js")) = none) →
      ((restoreFunctionsAndTemplates nodes flowName flowDir fs).getD i noNode).initCode =
        (nodes.getD i noNode).initCode) ∧
    ((∀ kv ∈ m, kv.1 = (nodes.getD i noNode).id → kv.2.hasInfo = true →
        fsRead fs (pjoin (pjoin flowDir flowName) (kv.2.fileName ++ ".info.md")) = none) →
      ((restoreFunctionsAndTemplates nodes flowName flowDir fs).getD i noNode).info =
        (nodes.getD i noNode).info) ∧
    ((∀ kv ∈ m, kv.1 = (nodes.getD i noNode).id → kv.2.hasCode = true →
        fsRead fs (pjoin (pjoin flowDir flowName)
          (kv.2.fileName ++ "." ++ (if kv.2.isVue then "vue" else "js"))) = none) →
      ((restoreFunctionsAndTemplates nodes flowName flowDir fs).getD i noNode).func =
          (nodes.getD i noNode).func ∧
        ((restoreFunctionsAndTemplates nodes flowName flowDir fs).getD i noNode).format =
          (nodes.getD i noNode).format) := by
  have hres : restoreFunctionsAndTemplates nodes flowName flowDir fs = nodes ∨
      restoreFunctionsAndTemplates nodes flowName flowDir fs =
        m.foldl (fun a kv => updateFirst a kv.1 (updateNode (pjoin flowDir flowName) fs kv.2))
          nodes := by
    unfold restoreFunctionsAndTemplates
    by_cases hne : nodes.isEmpty = true
    · exact Or.inl (by rw [if_pos hne])
    · rw [if_neg hne]
      exact Or.inr (by simp only [hm])
  have hrt : ∀ p : String, fsRead fs p = none → readText fs p = none := by
    intro p hp
    unfold readText
    rw [hp]
  rcases hres with hres | hres
  · rw [hres]
    exact ⟨rfl, rfl, fun _ => rfl, fun _ => rfl, fun _ => rfl, fun _ => ⟨rfl, rfl⟩⟩
  · rw [hres]
    obtain ⟨hlen, hid, hfin, hinit, hinfo, hcode⟩ :=
      restore_fold_fields (pjoin flowDir flowName) fs m i noNode nodes
    refine ⟨hlen, hid, ?_, ?_, ?_, ?_⟩
    · exact fun hyp => hfin (fun kv hkv h1 h2 => hrt _ (hyp kv hkv h1 h2))
    · exact fun hyp => hinit (fun kv hkv h1 h2 => hrt _ (hyp kv hkv h1 h2))
    · exact fun hyp => hinfo (fun kv hkv h1 h2 => hrt _ (hyp kv hkv h1 h2))
    · exact fun hyp => hcode (fun kv hkv h1 h2 => hrt _ (hyp kv hkv h1 h2))

/-- C8 (witness): a manifest entry claims `hasFinalize` but the `.finalize.js`
file was deleted by hand; the node's `finalize` field comes back unchanged. -/
theorem c8_witness :
    ((restoreFunctionsAndTemplates
        [⟨"1", "function", some "Foo", some "a", none, some "i", some "g", none⟩] "flow" "d"
        [(manifestPath (pjoin "d" "flow"),
          FsEntry.mf [("1", ⟨"1", "Foo", "Foo", "Foo", false, true, true, true, true, false⟩)]),
         ("d/flow/Foo.js", FsEntry.text "a"),
         ("d/flow/Foo.initialize.js", FsEntry.text "i")]).getD 0 noNode).finCode = some "g" := by
  have h := c8_missing_file_tolerance
    [⟨"1", "function", some "Foo", some "a", none, some "i", some "g", none⟩] "flow" "d"
    [(manifestPath (pjoin "d" "flow"),
      FsEntry.mf [("1", ⟨"1", "Foo", "Foo", "Foo", false, true, true, true, true, false⟩)]),
     ("d/flow/Foo.js", FsEntry.text "a"),
     ("d/flow/Foo.initialize.js", FsEntry.text "i")]
    [("1", ⟨"1", "Foo", "Foo", "Foo", false, true, true, true, true, false⟩)]
    (by decide) 0
  have h2 := h.2.2.1 (by decide)
  rw [h2]
  rfl

/-! ## String lemmas for the garbage-collection claims -/

theorem strAppend_right_cancel {a b c : String} (h : a ++ c = b ++ c) : a = b := by
  have hd := congrArg String.data h
  rw [String.data_append, String.data_append] at hd
  exact String.ext (List.append_cancel_right hd)

theorem strEndsWith_append (a b : String) : strEndsWith (a ++ b) b = true := by
  unfold strEndsWith
  rw [String.data_append, List.reverse_append]
  exact isPrefixOf_append_self _ _

theorem listHasSub_self_append (pat t : List Char) : listHasSub pat (pat ++ t) = true := by
  cases hp : pat ++ t with
  | nil =>
    have hpat : pat = [] := by
      cases pat with
      | nil => rfl
      | cons c cs => simp at hp
    rw [hpat]
    rfl
  | cons c rest =>
    show (pat.isPrefixOf (c :: rest) || listHasSub pat rest) = true
    rw [← hp, isPrefixOf_append_self]
    rfl

theorem strContains_self_append (a b : String) : strContains (a ++ b) a = true := by
  unfold strContains
  rw [String.data_append]
  exact listHasSub_self_append a.data b.data

theorem strDotJs : ("." : String) ++ "js" = ".js" := by decide

/-! ## The single-function-node pass -/

theorem mkFunNode_isVue (id nm fn : String) : isVueNode (mkFunNode id nm fn) = false := rfl

theorem mkFunNode_isFun (id nm fn : String) (h : optNonBlank (some fn) = true) :
    isFunNode (mkFunNode id nm fn) = true := by
  simp [isFunNode, mkFunNode, isVueNode, h]

theorem optNonBlank_isBlank (fn : String) (h : optNonBlank (some fn) = true) :
    isBlankOpt (some fn) = false := by
  have h2 : (strTrim fn).data.isEmpty = false := by
    simpa [optNonBlank] using h
  have h3 : fn.data.isEmpty = false := by
    cases hfe : fn.data.isEmpty with
    | false => rfl
    | true =>
      have : fn.data = [] := by simpa [List.isEmpty_iff] using hfe
      rw [show (strTrim fn).data = [] from by simp [strTrim, this]] at h2
      simp at h2
  simp [isBlankOpt, jsOr, h3, h2, List.isEmpty_iff]

theorem classify_mkFun (id nm fn s : String) (k : Nat) (h : optNonBlank (some fn) = true) :
    classifyNode (mkFunNode id nm fn) s k =
      ⟨s, if k > 1 then s ++ "(" ++ natDecimal k ++ ")" else s,
        false, true, some fn, none, none, none⟩ := by
  have hbn : isBlankOpt none = true := by decide
  unfold classifyNode
  rw [mkFunNode_isVue, mkFunNode_isFun id nm fn h]
  simp [mkFunNode, optNonBlank_isBlank fn h, hbn]

theorem passPure_mkFun (dir id nm fn : String) (h : optNonBlank (some fn) = true) :
    passPure dir [mkFunNode id nm fn] =
      ⟨[(pjoin dir (funFileName nm ++ ".js"), FsEntry.text fn)],
       [(id, nodeEntry (mkFunNode id nm fn) (jsOr (some nm) "unnamed-function")
          (classifyNode (mkFunNode id nm fn) (funFileName nm) 1))],
       [funFileName nm], 1⟩ := by
  have hraw : rawName (mkFunNode id nm fn) = some (jsOr (some nm) "unnamed-function") := by
    simp [rawName, mkFunNode]
  have hv : isVueNode (mkFunNode id nm fn) = false := rfl
  have hfn : isFunNode (mkFunNode id nm fn) = true := mkFunNode_isFun id nm fn h
  have hffn : sanitize (jsOr (some nm) "unnamed-function") = funFileName nm := rfl
  unfold passPure
  simp only [List.foldl, processPure, hraw]
  simp only [List.nil_append, List.filter_cons, List.filter_nil, beq_self_eq_true, if_true,
    List.length_cons, List.length_nil, Nat.zero_add, classifyNode_isVue, classifyNode_isFun,
    hv, hfn, Bool.or_true, if_true, hffn]
  rw [classify_mkFun id nm fn (funFileName nm) 1 h]
  simp [mUpdate, nodeWrites, classify_mkFun id nm fn (funFileName nm) 1 h, strAppend_assoc,
    strDotJs, mkFunNode]

theorem manifestOf_mkFun (dir id nm fn : String) (h : optNonBlank (some fn) = true) :
    manifestOf dir [mkFunNode id nm fn] =
      [(id, nodeEntry (mkFunNode id nm fn) (jsOr (some nm) "unnamed-function")
        (classifyNode (mkFunNode id nm fn) (funFileName nm) 1))] := by
  unfold manifestOf
  rw [passPure_mkFun dir id nm fn h]

theorem writeSeq_mkFun (dir id nm fn : String) (h : optNonBlank (some fn) = true) :
    writeSeq dir [mkFunNode id nm fn] =
      [(pjoin dir (funFileName nm ++ ".js"), FsEntry.text fn),
       (manifestPath dir, FsEntry.mf [(id, nodeEntry (mkFunNode id nm fn)
          (jsOr (some nm) "unnamed-function")
          (classifyNode (mkFunNode id nm fn) (funFileName nm) 1))])] := by
  unfold writeSeq
  rw [passPure_mkFun dir id nm fn h]
  simp

theorem entry_mkFun_fileName (id nm fn : String) (h : optNonBlank (some fn) = true) :
    (nodeEntry (mkFunNode id nm fn) (jsOr (some nm) "unnamed-function")
      (classifyNode (mkFunNode id nm fn) (funFileName nm) 1)).fileName = funFileName nm := by
  rw [classify_mkFun id nm fn (funFileName nm) 1 h]
  simp [nodeEntry]

theorem processPure_mkFun (dir id nm fn : String) (ws : List (String × FsEntry)) (m : Manifest)
    (f : List String) (c : Nat) (h : optNonBlank (some fn) = true)
    (hcnt : ((f ++ [funFileName nm]).filter (fun x => x == funFileName nm)).length = 1) :
    processPure dir ⟨ws, m, f, c⟩ (mkFunNode id nm fn) =
      ⟨ws ++ [(pjoin dir (funFileName nm ++ ".js"), FsEntry.text fn)],
       mUpdate m id (nodeEntry (mkFunNode id nm fn) (jsOr (some nm) "unnamed-function")
         (classifyNode (mkFunNode id nm fn) (funFileName nm) 1)),
       f ++ [funFileName nm], c + 1⟩ := by
  have hraw : rawName (mkFunNode id nm fn) = some (jsOr (some nm) "unnamed-function") := by
    simp [rawName, mkFunNode]
  have hv : isVueNode (mkFunNode id nm fn) = false := rfl
  have hfn : isFunNode (mkFunNode id nm fn) = true := mkFunNode_isFun id nm fn h
  have hffn : sanitize (jsOr (some nm) "unnamed-function") = funFileName nm := rfl
  unfold processPure
  simp only [hraw, hffn, hcnt, classifyNode_isVue, classifyNode_isFun, hv, hfn, Bool.or_true,
    if_true]
  rw [classify_mkFun id nm fn (funFileName nm) 1 h]
  simp [nodeWrites, classify_mkFun id nm fn (funFileName nm) 1 h, strAppend_assoc, strDotJs,
    mkFunNode]

theorem passPure_mkFun2 (dir idA idB nmA nmB a b : String)
    (ha : optNonBlank (some a) = true) (hb : optNonBlank (some b) = true)
    (hsan : ¬(funFileName nmB = funFileName nmA)) (hids : ¬(idB = idA)) :
    passPure dir [mkFunNode idA nmA a, mkFunNode idB nmB b] =
      ⟨[(pjoin dir (funFileName nmA ++ ".js"), FsEntry.text a),
        (pjoin dir (funFileName nmB ++ ".js"), FsEntry.text b)],
       [(idA, nodeEntry (mkFunNode idA nmA a) (jsOr (some nmA) "unnamed-function")
          (classifyNode (mkFunNode idA nmA a) (funFileName nmA) 1)),
        (idB, nodeEntry (mkFunNode idB nmB b) (jsOr (some nmB) "unnamed-function")
          (classifyNode (mkFunNode idB nmB b) (funFileName nmB) 1))],
       [funFileName nmA, funFileName nmB], 2⟩ := by
  have e0 : passPure dir [mkFunNode idA nmA a, mkFunNode idB nmB b] =
      processPure dir (processPure dir ⟨[], [], [], 0⟩ (mkFunNode idA nmA a))
        (mkFunNode idB nmB b) := rfl
  have hne : ¬(funFileName nmA = funFileName nmB) := fun h => hsan h.symm
  have hids' : ¬(idA = idB) := fun h => hids h.symm
  rw [e0, processPure_mkFun dir idA nmA a [] [] [] 0 ha (by simp),
    processPure_mkFun dir idB nmB b _ _ _ 1 hb
      (by simp [List.filter_cons, hne])]
  simp [mUpdate, hids', beq_eq_false_iff_ne.mpr hids']

theorem manifestOf_mkFun2 (dir idA idB nmA nmB a b : String)
    (ha : optNonBlank (some a) = true) (hb : optNonBlank (some b) = true)
    (hsan : ¬(funFileName nmB = funFileName nmA)) (hids : ¬(idB = idA)) :
    manifestOf dir [mkFunNode idA nmA a, mkFunNode idB nmB b] =
      [(idA, nodeEntry (mkFunNode idA nmA a) (jsOr (some nmA) "unnamed-function")
          (classifyNode (mkFunNode idA nmA a) (funFileName nmA) 1)),
       (idB, nodeEntry (mkFunNode idB nmB b) (jsOr (some nmB) "unnamed-function")
          (classifyNode (mkFunNode idB nmB b) (funFileName nmB) 1))] := by
  unfold manifestOf
  rw [passPure_mkFun2 dir idA idB nmA nmB a b ha hb hsan hids]

theorem writeSeq_mkFun2 (dir idA idB nmA nmB a b : String)
    (ha : optNonBlank (some a) = true) (hb : optNonBlank (some b) = true)
    (hsan : ¬(funFileName nmB = funFileName nmA)) (hids : ¬(idB = idA)) :
    writeSeq dir [mkFunNode idA nmA a, mkFunNode idB nmB b] =
      [(pjoin dir (funFileName nmA ++ ".js"), FsEntry.text a),
       (pjoin dir (funFileName nmB ++ ".js"), FsEntry.text b),
       (manifestPath dir, FsEntry.mf
         [(idA, nodeEntry (mkFunNode idA nmA a) (jsOr (some nmA) "unnamed-function")
            (classifyNode (mkFunNode idA nmA a) (funFileName nmA) 1)),
          (idB, nodeEntry (mkFunNode idB nmB b) (jsOr (some nmB) "unnamed-function")
            (classifyNode (mkFunNode idB nmB b) (funFileName nmB) 1))])] := by
  unfold writeSeq
  rw [passPure_mkFun2 dir idA idB nmA nmB a b ha hb hsan hids]
  simp

/-! ## Claim C2 -/

/-- C2 (amended): extract an entity with function nodes A and B, then again
with only A.  B's manifest entry is removed and A's code file still holds A's
content; B's code file is deleted exactly when its name does not contain A's
`fileName` as a substring — the `file.indexOf(item.fileName) > -1` test of
`cleanupUnusedFiles` retains any file whose name contains a surviving entry's
basename. -/
theorem c2_gc_substring (idA idB nmA nmB a b flowName flowDir : String)
    (hids : ¬(idB = idA))
    (ha : optNonBlank (some a) = true) (hb : optNonBlank (some b) = true)
    (hsan : ¬(funFileName nmB = funFileName nmA)) :
    (∀ kv ∈ manifestOf (pjoin flowDir flowName) [mkFunNode idA nmA a], ¬(kv.1 = idB)) ∧
    fsRead (extractWithGC [mkFunNode idA nmA a, mkFunNode idB nmB b] flowName flowDir [])
      (pjoin (pjoin flowDir flowName) (funFileName nmB ++ ".js")) = some (FsEntry.text b) ∧
    fsRead (extractWithGC [mkFunNode idA nmA a] flowName flowDir
        (extractWithGC [mkFunNode idA nmA a, mkFunNode idB nmB b] flowName flowDir []))
      (pjoin (pjoin flowDir flowName) (funFileName nmA ++ ".js")) = some (FsEntry.text a) ∧
    (strContains (funFileName nmB ++ ".js") (funFileName nmA) = false →
      fsRead (extractWithGC [mkFunNode idA nmA a] flowName flowDir
          (extractWithGC [mkFunNode idA nmA a, mkFunNode idB nmB b] flowName flowDir []))
        (pjoin (pjoin flowDir flowName) (funFileName nmB ++ ".js")) = none) := by
  have hm2 := manifestOf_mkFun (pjoin flowDir flowName) idA nmA a ha
  have hflA := entry_mkFun_fileName idA nmA a ha
  refine ⟨?_, ?_, ?_, ?_⟩
  case refine_2 =>
    rw [fsRead_extractWithGC _ _ _ _ _ (by simp)]
    have hm1 := manifestOf_mkFun2 (pjoin flowDir flowName) idA idB nmA nmB a b ha hb hsan hids
    have hflB := entry_mkFun_fileName idB nmB b hb
    have hgc1 : gcDeletes (pjoin flowDir flowName)
        (manifestOf (pjoin flowDir flowName) [mkFunNode idA nmA a, mkFunNode idB nmB b])
        (pjoin (pjoin flowDir flowName) (funFileName nmB ++ ".js")) = false := by
      unfold gcDeletes
      simp only [relUnder_pjoin, hm1, manifestMatches, List.any_cons, List.any_nil, hflB,
        strContains_self_append]
      simp
    rw [hgc1]
    have hpa_ne : ¬(pjoin (pjoin flowDir flowName) (funFileName nmA ++ ".js") =
        pjoin (pjoin flowDir flowName) (funFileName nmB ++ ".js")) :=
      fun hh => hsan (strAppend_right_cancel (pjoin_right_inj hh)).symm
    have hmf_ne2 : ¬(manifestPath (pjoin flowDir flowName) =
        pjoin (pjoin flowDir flowName) (funFileName nmB ++ ".js")) :=
      str_ne_of_last
        (suffix_data_reverse (pjoin flowDir flowName ++ "/") ".manifest.json" rev_manifest)
        (pjoin_suffix_reverse _ _ _ rev_js) (by decide)
    rw [writeSeq_mkFun2 (pjoin flowDir flowName) idA idB nmA nmB a b ha hb hsan hids]
    simp [lastWrite_cons, lastWrite_single, beq_eq_false_iff_ne.mpr hpa_ne,
      beq_eq_false_iff_ne.mpr hmf_ne2]
    rfl
  · rw [hm2]
    intro kv hkv
    rw [List.mem_singleton] at hkv
    subst hkv
    exact fun hh => hids hh.symm
  · rw [fsRead_extractWithGC _ _ _ _ _ (by simp)]
    have hgc : gcDeletes (pjoin flowDir flowName)
        (manifestOf (pjoin flowDir flowName) [mkFunNode idA nmA a])
        (pjoin (pjoin flowDir flowName) (funFileName nmA ++ ".js")) = false := by
      unfold gcDeletes
      simp only [relUnder_pjoin, hm2, manifestMatches, List.any_cons, List.any_nil, hflA,
        strContains_self_append]
      simp
    rw [hgc]
    have hmf_ne : ¬(manifestPath (pjoin flowDir flowName) =
        pjoin (pjoin flowDir flowName) (funFileName nmA ++ ".js")) :=
      str_ne_of_last
        (suffix_data_reverse (pjoin flowDir flowName ++ "/") ".manifest.json" rev_manifest)
        (pjoin_suffix_reverse _ _ _ rev_js) (by decide)
    rw [writeSeq_mkFun _ _ _ _ ha]
    simp [lastWrite_cons, lastWrite_single, beq_eq_false_iff_ne.mpr hmf_ne]
    rfl
  · intro hsubf
    rw [fsRead_extractWithGC _ _ _ _ _ (by simp)]
    have hext : recognizedExt (funFileName nmB ++ ".js") = true := by
      unfold recognizedExt
      rw [strEndsWith_append]
      simp
    have hnm : strEndsWith (funFileName nmB ++ ".js") ".manifest.json" = false := by
      cases hx : strEndsWith (funFileName nmB ++ ".js") ".manifest.json" with
      | false => rfl
      | true =>
        obtain ⟨l, hl⟩ := strEndsWith_rev_cons hx rev_manifest
        rw [suffix_data_reverse (funFileName nmB) ".js" rev_js] at hl
        cases hl
    have hgc : gcDeletes (pjoin flowDir flowName)
        (manifestOf (pjoin flowDir flowName) [mkFunNode idA nmA a])
        (pjoin (pjoin flowDir flowName) (funFileName nmB ++ ".js")) = true := by
      unfold gcDeletes
      simp only [relUnder_pjoin, hm2, manifestMatches, List.any_cons, List.any_nil, hflA,
        hext, hnm, hsubf]
      simp
    rw [hgc]
    simp

/-- C2 counterexample: nodes named Foo and FooBar are both extracted; a second
pass containing only Foo removes FooBar from the manifest, yet FooBar.js (whose
name contains the surviving basename Foo as a substring) is NOT deleted by
`cleanupUnusedFiles`, contradicting the claim that all files of a removed node
are deleted. -/
theorem c2_counterexample :
    fsRead (extractWithGC [mkFunNode "1" "Foo" "a"] "flow" "d"
        (extractWithGC [mkFunNode "1" "Foo" "a", mkFunNode "2" "FooBar" "b"] "flow" "d" []))
      "d/flow/FooBar.js" = some (FsEntry.text "b") ∧
    (∀ kv ∈ manifestOf (pjoin "d" "flow") [mkFunNode "1" "Foo" "a"], ¬(kv.1 = "2")) := by
  decide

/-- Witness for the amended C2 theorem at a collision-free pair of names:
after re-extraction with only node Foo, the file of the removed node Zed is
gone, since no surviving basename occurs in the string Zed.js. -/
theorem c2_witness :
    fsRead (extractWithGC [mkFunNode "1" "Foo" "a"] "flow" "d"
        (extractWithGC [mkFunNode "1" "Foo" "a", mkFunNode "2" "Zed" "b"] "flow" "d" []))
      (pjoin (pjoin "d" "flow") (funFileName "Zed" ++ ".js")) = none :=
  (c2_gc_substring "1" "2" "Foo" "Zed" "a" "b" "flow" "d" (by decide) (by decide) (by decide)
    (by decide)).2.2.2 (by decide)

/-! ## Claim C5 -/

theorem applyWritesE_append (bad : List String) (a b : List (String × FsEntry)) :
    ∀ fs : FS, applyWritesE bad fs (a ++ b) =
      (match applyWritesE bad fs a with
       | Except.error err => Except.error err
       | Except.ok fs2 => applyWritesE bad fs2 b) := by
  induction a with
  | nil => intro fs; rfl
  | cons w rest ih =>
    intro fs
    simp only [List.cons_append, applyWritesE]
    cases h : fsWriteE bad fs w.1 w.2 with
    | error err => rfl
    | ok fs2 => exact ih fs2

theorem applyWritesE_clean (bad : List String) (ws : List (String × FsEntry)) :
    ∀ fs : FS, (∀ w ∈ ws, bad.contains w.1 = false) →
      applyWritesE bad fs ws = Except.ok (applyWrites fs ws) := by
  induction ws with
  | nil => intro fs h; rfl
  | cons w rest ih =>
    intro fs h
    have hw : bad.contains w.1 = false := h w (List.mem_cons_self w rest)
    have hfw : fsWriteE bad fs w.1 w.2 = Except.ok (fsWrite fs w.1 w.2) := by
      simp only [fsWriteE, hw, Bool.false_eq_true, if_false]
    simp only [applyWritesE, hfw]
    exact ih (fsWrite fs w.1 w.2) (fun u hu => h u (List.mem_cons_of_mem w hu))

theorem applyWritesE_fault (bad : List String) (p : String) (e : FsEntry)
    (ws2 : List (String × FsEntry)) :
    ∀ (ws1 : List (String × FsEntry)) (fs : FS),
      (∀ w ∈ ws1, bad.contains w.1 = false) → bad.contains p = true →
      applyWritesE bad fs (ws1 ++ (p, e) :: ws2) = Except.error (p, applyWrites fs ws1) := by
  intro ws1
  induction ws1 with
  | nil =>
    intro fs _ hp
    have hfw : fsWriteE bad fs p e = Except.error (p, fs) := by
      simp only [fsWriteE, hp, if_true]
    simp only [List.nil_append, applyWritesE, hfw]
    rfl
  | cons w rest ih =>
    intro fs h hp
    have hw : bad.contains w.1 = false := h w (List.mem_cons_self w rest)
    have hfw : fsWriteE bad fs w.1 w.2 = Except.ok (fsWrite fs w.1 w.2) := by
      simp only [fsWriteE, hw, Bool.false_eq_true, if_false]
    simp only [List.cons_append, applyWritesE, hfw]
    exact ih (fsWrite fs w.1 w.2) (fun u hu => h u (List.mem_cons_of_mem w hu)) hp

theorem processNodeE_processPure (bad : List String) (dir : String) (n : NodeRec) (fs : FS)
    (m : Manifest) (f : List String) (c : Nat) :
    ∃ nw m2 f2 c2,
      processPure dir ⟨[], m, f, c⟩ n = ⟨nw, m2, f2, c2⟩ ∧
      processNodeE bad dir ⟨fs, m, f, c⟩ n =
        (match applyWritesE bad fs nw with
         | Except.error err => Except.error err
         | Except.ok fs2 => Except.ok ⟨fs2, m2, f2, c2⟩) := by
  cases hn : rawName n with
  | none =>
    refine ⟨[], m, f, c, ?_, ?_⟩ <;> simp [processNodeE, processPure, hn, applyWritesE]
  | some name =>
    by_cases hcls :
        ((classifyNode n (sanitize name)
            ((f.filter (fun x => x == sanitize name)).length + 1)).isVue ||
         (classifyNode n (sanitize name)
            ((f.filter (fun x => x == sanitize name)).length + 1)).isFun) = true
    · refine ⟨nodeWrites dir (classifyNode n (sanitize name)
          ((f.filter (fun x => x == sanitize name)).length + 1)),
        mUpdate m n.id (nodeEntry n name (classifyNode n (sanitize name)
          ((f.filter (fun x => x == sanitize name)).length + 1))),
        f ++ [sanitize name], c + 1, ?_, ?_⟩ <;>
        simp [processNodeE, processPure, hn, hcls]
    · refine ⟨[], m, f ++ [sanitize name], c, ?_, ?_⟩ <;>
        simp [processNodeE, processPure, hn, hcls, applyWritesE]

theorem extractCoreE_eq (bad : List String) (dir : String) (nodes : List NodeRec) :
    ∀ (fs : FS) (m : Manifest) (f : List String) (c : Nat),
      extractCoreE bad dir nodes ⟨fs, m, f, c⟩ =
        (match applyWritesE bad fs (nodes.foldl (processPure dir) ⟨[], m, f, c⟩).ws with
         | Except.error err => Except.error err
         | Except.ok fs2 =>
           Except.ok ⟨fs2, (nodes.foldl (processPure dir) ⟨[], m, f, c⟩).manifest,
             (nodes.foldl (processPure dir) ⟨[], m, f, c⟩).fileNames,
             (nodes.foldl (processPure dir) ⟨[], m, f, c⟩).count⟩) := by
  induction nodes with
  | nil => intro fs m f c; rfl
  | cons n rest ih =>
    intro fs m f c
    have e0 : extractCoreE bad dir (n :: rest) ⟨fs, m, f, c⟩ =
        (match processNodeE bad dir ⟨fs, m, f, c⟩ n with
         | Except.error err => Except.error err
         | Except.ok st2 => extractCoreE bad dir rest st2) := rfl
    have e1 : (n :: rest).foldl (processPure dir) ⟨[], m, f, c⟩ =
        rest.foldl (processPure dir) (processPure dir ⟨[], m, f, c⟩ n) := rfl
    obtain ⟨nw, m2, f2, c2, hpp, hpe⟩ := processNodeE_processPure bad dir n fs m f c
    rw [e0, e1, hpe, hpp, processPure_fold_shift dir rest nw m2 f2 c2]
    rw [applyWritesE_append bad nw _ fs]
    cases h : applyWritesE bad fs nw with
    | error err => rfl
    | ok fs2 =>
      dsimp only
      rw [ih fs2 m2 f2 c2]

theorem extractFresh_writes (nodes : List NodeRec) (flowName flowDir : String) (fs : FS)
    (hne : nodes ≠ []) :
    extractFresh nodes flowName flowDir fs =
      applyWrites (fsEraseDir fs (pjoin flowDir flowName))
        (writeSeq (pjoin flowDir flowName) nodes) := by
  obtain ⟨n, rest, rfl⟩ : ∃ a l, nodes = a :: l := by
    cases nodes with
    | nil => exact absurd rfl hne
    | cons a l => exact ⟨a, l, rfl⟩
  unfold extractFresh
  simp only [List.isEmpty_cons, Bool.false_eq_true, if_false]
  rw [extractCore_eq]
  simp only [writeSeq, passPure]
  by_cases hc :
      (List.foldl (processPure (pjoin flowDir flowName)) ⟨[], [], [], 0⟩ (n :: rest)).count > 0
  · simp only [hc, if_true]
    rw [applyWrites_append]
    rfl
  · simp only [hc, if_false, List.append_nil]

theorem applyWritesE_single (bad : List String) (g : FS) (q : String) (ent : FsEntry) :
    applyWritesE bad g [(q, ent)] = fsWriteE bad g q ent := by
  simp only [applyWritesE]
  cases ht : fsWriteE bad g q ent with
  | error err => rfl
  | ok g2 => rfl

theorem extractFreshE_eq (bad : List String) (nodes : List NodeRec)
    (flowName flowDir : String) (fs : FS) (hne : nodes ≠ []) :
    extractFreshE bad nodes flowName flowDir fs =
      applyWritesE bad (fsEraseDir fs (pjoin flowDir flowName))
        (writeSeq (pjoin flowDir flowName) nodes) := by
  obtain ⟨n, rest, rfl⟩ : ∃ a l, nodes = a :: l := by
    cases nodes with
    | nil => exact absurd rfl hne
    | cons a l => exact ⟨a, l, rfl⟩
  unfold extractFreshE
  simp only [List.isEmpty_cons, Bool.false_eq_true, if_false]
  rw [extractCoreE_eq]
  simp only [writeSeq, passPure]
  rw [applyWritesE_append]
  cases h : applyWritesE bad (fsEraseDir fs (pjoin flowDir flowName))
      (List.foldl (processPure (pjoin flowDir flowName)) ⟨[], [], [], 0⟩ (n :: rest)).ws with
  | error err => rfl
  | ok fs2 =>
    show (if (List.foldl (processPure (pjoin flowDir flowName)) ⟨[], [], [], 0⟩
            (n :: rest)).count > 0 then
        fsWriteE bad fs2 (manifestPath (pjoin flowDir flowName))
          (FsEntry.mf (List.foldl (processPure (pjoin flowDir flowName)) ⟨[], [], [], 0⟩
            (n :: rest)).manifest)
      else Except.ok fs2) =
      applyWritesE bad fs2
        (if (List.foldl (processPure (pjoin flowDir flowName)) ⟨[], [], [], 0⟩
            (n :: rest)).count > 0 then
          [(manifestPath (pjoin flowDir flowName),
            FsEntry.mf (List.foldl (processPure (pjoin flowDir flowName)) ⟨[], [], [], 0⟩
              (n :: rest)).manifest)]
        else [])
    by_cases hc :
        (List.foldl (processPure (pjoin flowDir flowName)) ⟨[], [], [], 0⟩ (n :: rest)).count > 0
    · simp only [hc, if_true]
      rw [applyWritesE_single]
    · simp only [hc, if_false]
      rfl

/-- C5 (amended): a failing `writeFileSync` does NOT leave a warning and
continue — none of the write calls of the extraction pass is wrapped in
try/catch, so the first throw aborts the pass for the whole entity (the
exception is caught per entity in `processFlowDirectory` of index.js).
Formally, under the fault model where writes to paths in `bad` throw: if no
write of the pass hits a bad path, extraction succeeds with exactly the
fault-free result; and if the write sequence splits at a first bad path `p`,
extraction throws `p` with only the writes strictly before `p` performed —
every later node's files and the manifest are never written. -/
theorem c5_write_fault_aborts (bad : List String) (nodes : List NodeRec)
    (flowName flowDir : String) (fs : FS) (hne : nodes ≠ []) :
    ((∀ w ∈ writeSeq (pjoin flowDir flowName) nodes, bad.contains w.1 = false) →
      extractFreshE bad nodes flowName flowDir fs =
        Except.ok (extractFresh nodes flowName flowDir fs)) ∧
    (∀ (ws1 : List (String × FsEntry)) (p : String) (e : FsEntry)
        (ws2 : List (String × FsEntry)),
      writeSeq (pjoin flowDir flowName) nodes = ws1 ++ (p, e) :: ws2 →
      (∀ w ∈ ws1, bad.contains w.1 = false) →
      bad.contains p = true →
      extractFreshE bad nodes flowName flowDir fs =
        Except.error (p, applyWrites (fsEraseDir fs (pjoin flowDir flowName)) ws1)) := by
  constructor
  · intro hclean
    rw [extractFreshE_eq bad nodes flowName flowDir fs hne,
      applyWritesE_clean bad _ _ hclean,
      extractFresh_writes nodes flowName flowDir fs hne]
  · intro ws1 p e ws2 hsplit h1 hp
    rw [extractFreshE_eq bad nodes flowName flowDir fs hne, hsplit,
      applyWritesE_fault bad p e ws2 ws1 _ h1 hp]

/-- C5 counterexample: with nodes Foo and Bar and a fault on Foo's file, the
pass aborts at the very first write — Bar's file and the manifest are never
written (the error state is the untouched empty filesystem), refuting the
claim that the remaining nodes are still attempted. -/
theorem c5_counterexample :
    extractFreshE ["d/flow/Foo.js"]
      [mkFunNode "1" "Foo" "a", mkFunNode "2" "Bar" "b"] "flow" "d" [] =
      Except.error ("d/flow/Foo.js", []) := by
  rfl

/-- Witness for the amended C5 theorem: the split of the concrete write
sequence at the faulty first write yields the abort with no prior writes. -/
theorem c5_witness :
    extractFreshE ["d/flow/Foo.js"]
      [mkFunNode "1" "Foo" "a", mkFunNode "2" "Bar" "b"] "flow" "d" [] =
      Except.error ("d/flow/Foo.js", applyWrites (fsEraseDir [] (pjoin "d" "flow")) []) :=
  (c5_write_fault_aborts ["d/flow/Foo.js"]
      [mkFunNode "1" "Foo" "a", mkFunNode "2" "Bar" "b"] "flow" "d" [] (by decide)).2
    [] "d/flow/Foo.js" (FsEntry.text "a")
    (writeSeq (pjoin "d" "flow") [mkFunNode "1" "Foo" "a", mkFunNode "2" "Bar" "b"]).tail
    (by decide) (by decide) (by decide)

/-! ## Claim C1 -/

theorem foldl_fixed {α β : Type} (g : α → β → α) (a : α) :
    ∀ m : List β, (∀ kv ∈ m, g a kv = a) → m.foldl g a = a := by
  intro m
  induction m with
  | nil => intro h; rfl
  | cons x rest ih =>
    intro h
    rw [List.foldl_cons, h x (List.mem_cons_self x rest)]
    exact ih (fun kv hkv => h kv (List.mem_cons_of_mem x hkv))

theorem nodup_map_inj {l : List NodeRec} (h : (l.map (fun n => n.id)).Nodup) :
    ∀ x ∈ l, ∀ y ∈ l, x.id = y.id → x = y := by
  induction l with
  | nil => intro x hx; cases hx
  | cons a rest ih =>
    intro x hx y hy hxy
    rw [List.map_cons, List.nodup_cons] at h
    obtain ⟨hna, hnd⟩ := h
    rcases List.mem_cons.mp hx with rfl | hx2
    · rcases List.mem_cons.mp hy with rfl | hy2
      · rfl
      · have hin : y.id ∈ rest.map (fun n => n.id) := List.mem_map_of_mem _ hy2
        rw [← hxy] at hin
        exact absurd hin hna
    · rcases List.mem_cons.mp hy with rfl | hy2
      · have hin : x.id ∈ rest.map (fun n => n.id) := List.mem_map_of_mem _ hx2
        rw [hxy] at hin
        exact absurd hin hna
      · exact ih hnd x hx2 y hy2 hxy

theorem lastWrite_of_mem_nodup (ws : List (String × FsEntry)) (p : String) (e : FsEntry)
    (h : (ws.map Prod.fst).Nodup) (hm : (p, e) ∈ ws) : lastWrite ws p = some e := by
  induction ws with
  | nil => cases hm
  | cons w rest ih =>
    rw [List.map_cons, List.nodup_cons] at h
    obtain ⟨hna, hnd⟩ := h
    rw [lastWrite_cons]
    rcases List.mem_cons.mp hm with heq | hm2
    · have hp : w.1 = p := by rw [← heq]
      have he : w.2 = e := by rw [← heq]
      have hnone : lastWrite rest p = none := by
        refine lastWrite_eq_none ?_
        intro u hu hup
        have hin : u.1 ∈ rest.map Prod.fst := List.mem_map_of_mem Prod.fst hu
        rw [hup, ← hp] at hin
        exact hna hin
      rw [hnone]
      simp [hp, he]
    · rw [ih hnd hm2]
      rfl

theorem processPure_count_le (dir : String) (st : PassPure) (n : NodeRec) :
    st.count ≤ (processPure dir st n).count := by
  cases hn : rawName n with
  | none => simp [processPure, hn]
  | some name =>
    simp only [processPure, hn]
    split
    · exact Nat.le_succ _
    · exact Nat.le_refl _

theorem fold_count_le (dir : String) (nodes : List NodeRec) :
    ∀ st : PassPure, st.count ≤ (nodes.foldl (processPure dir) st).count := by
  induction nodes with
  | nil => intro st; exact Nat.le_refl _
  | cons n rest ih =>
    intro st
    exact Nat.le_trans (processPure_count_le dir st n) (ih (processPure dir st n))

theorem processPure_count_extract (dir : String) (st : PassPure) (n : NodeRec)
    (h : extractable n = true) : (processPure dir st n).count = st.count + 1 := by
  unfold extractable at h
  cases hn : rawName n with
  | none => rw [hn] at h; simp at h
  | some name =>
    rw [hn] at h
    simp only [Option.isSome_some, Bool.true_and] at h
    simp [processPure, hn, classifyNode_isVue, classifyNode_isFun, h]

theorem count_pos_of_any (dir : String) (nodes : List NodeRec) :
    ∀ st : PassPure, nodes.any extractable = true →
      0 < (nodes.foldl (processPure dir) st).count := by
  induction nodes with
  | nil => intro st h; simp at h
  | cons n rest ih =>
    intro st h
    by_cases hn : extractable n = true
    · have h1 : (processPure dir st n).count = st.count + 1 :=
        processPure_count_extract dir st n hn
      have h2 := fold_count_le dir rest (processPure dir st n)
      rw [h1] at h2
      exact Nat.lt_of_lt_of_le (Nat.succ_pos st.count) h2
    · have hn2 : extractable n = false := by
        cases hx : extractable n with
        | true => exact absurd hx hn
        | false => rfl
      rw [List.any_cons, hn2] at h
      simp only [Bool.false_or] at h
      exact ih (processPure dir st n) h

theorem mUpdate_mem (m : Manifest) (i : String) (e : ManifestEntry) (kv : String × ManifestEntry)
    (h : kv ∈ mUpdate m i e) : kv ∈ m ∨ kv = (i, e) := by
  unfold mUpdate at h
  by_cases ha : m.any (fun kv => kv.1 == i) = true
  · rw [if_pos ha] at h
    obtain ⟨kv0, hkv0, heq⟩ := List.mem_map.mp h
    by_cases h0 : (kv0.1 == i) = true
    · right
      rw [if_pos h0] at heq
      exact heq.symm
    · left
      rw [if_neg h0] at heq
      rwa [← heq]
  · rw [if_neg ha] at h
    rcases List.mem_append.mp h with h1 | h1
    · exact Or.inl h1
    · exact Or.inr (List.mem_singleton.mp h1)

theorem processPure_cases (dir : String) (st : PassPure) (n : NodeRec) :
    ((processPure dir st n).manifest = st.manifest ∧ (processPure dir st n).ws = st.ws) ∨
    (∃ name k, rawName n = some name ∧
      (processPure dir st n).manifest =
        mUpdate st.manifest n.id (nodeEntry n name (classifyNode n (sanitize name) k)) ∧
      (processPure dir st n).ws = st.ws ++ nodeWrites dir (classifyNode n (sanitize name) k)) := by
  rcases st with ⟨ws0, m0, f0, c0⟩
  cases hn : rawName n with
  | none => exact Or.inl ⟨by simp [processPure, hn], by simp [processPure, hn]⟩
  | some name =>
    by_cases hcls :
        ((classifyNode n (sanitize name)
            ((f0.filter (fun x => x == sanitize name)).length + 1)).isVue ||
         (classifyNode n (sanitize name)
            ((f0.filter (fun x => x == sanitize name)).length + 1)).isFun) = true
    · exact Or.inr ⟨name, (f0.filter (fun x => x == sanitize name)).length + 1, rfl,
        by simp [processPure, hn, hcls], by simp [processPure, hn, hcls]⟩
    · exact Or.inl ⟨by simp [processPure, hn, hcls], by simp [processPure, hn, hcls]⟩

theorem fold_prov (dir : String) (allNodes : List NodeRec) (nodes : List NodeRec) :
    ∀ st : PassPure,
      (∀ n ∈ nodes, n ∈ allNodes) →
      (∀ kv ∈ st.manifest, ∃ node ∈ allNodes, kv.1 = node.id ∧ ∃ name k,
        rawName node = some name ∧
        kv.2 = nodeEntry node name (classifyNode node (sanitize name) k) ∧
        ∀ w ∈ nodeWrites dir (classifyNode node (sanitize name) k), w ∈ st.ws) →
      ∀ kv ∈ (nodes.foldl (processPure dir) st).manifest,
        ∃ node ∈ allNodes, kv.1 = node.id ∧ ∃ name k,
          rawName node = some name ∧
          kv.2 = nodeEntry node name (classifyNode node (sanitize name) k) ∧
          ∀ w ∈ nodeWrites dir (classifyNode node (sanitize name) k),
            w ∈ (nodes.foldl (processPure dir) st).ws := by
  induction nodes with
  | nil => intro st hsub hst kv hkv; exact hst kv hkv
  | cons n rest ih =>
    intro st hsub hst kv hkv
    have e0 : (n :: rest).foldl (processPure dir) st =
        rest.foldl (processPure dir) (processPure dir st n) := rfl
    rw [e0] at hkv ⊢
    refine ih (processPure dir st n) (fun j hj => hsub j (List.mem_cons_of_mem n hj)) ?_ kv hkv
    intro kv2 hkv2
    rcases processPure_cases dir st n with ⟨hm, hws⟩ | ⟨name, k, hn, hm, hws⟩
    · rw [hm] at hkv2
      obtain ⟨node, hnode, hid, nm2, k2, hraw, hentry, hw2⟩ := hst kv2 hkv2
      exact ⟨node, hnode, hid, nm2, k2, hraw, hentry,
        fun w hwm => by rw [hws]; exact hw2 w hwm⟩
    · rw [hm] at hkv2
      rcases mUpdate_mem _ _ _ _ hkv2 with h1 | h1
      · obtain ⟨node, hnode, hid, nm2, k2, hraw, hentry, hw2⟩ := hst kv2 h1
        exact ⟨node, hnode, hid, nm2, k2, hraw, hentry,
          fun w hwm => by rw [hws]; exact List.mem_append_left _ (hw2 w hwm)⟩
      · subst h1
        exact ⟨n, hsub n (List.mem_cons_self n rest), rfl, name, k, hn, rfl,
          fun w hwm => by rw [hws]; exact List.mem_append_right _ hwm⟩

theorem manifest_prov (dir : String) (nodes : List NodeRec) :
    ∀ kv ∈ manifestOf dir nodes, ∃ node ∈ nodes, kv.1 = node.id ∧ ∃ name k,
      rawName node = some name ∧
      kv.2 = nodeEntry node name (classifyNode node (sanitize name) k) ∧
      ∀ w ∈ nodeWrites dir (classifyNode node (sanitize name) k), w ∈ writeSeq dir nodes := by
  intro kv hkv
  obtain ⟨node, hnode, hid, name, k, hraw, hentry, hws⟩ :=
    fold_prov dir nodes nodes ⟨[], [], [], 0⟩ (fun j hj => hj)
      (by intro kv2 h2; cases h2) kv hkv
  exact ⟨node, hnode, hid, name, k, hraw, hentry,
    fun w hw => List.mem_append_left _ (hws w hw)⟩

theorem updateFirst_congr (nodes : List NodeRec) (i : String) (f : NodeRec → NodeRec)
    (h : ∀ j ∈ nodes, j.id = i → f j = j) : updateFirst nodes i f = nodes := by
  induction nodes with
  | nil => rfl
  | cons n rest ih =>
    unfold updateFirst
    by_cases hn : (n.id == i) = true
    · rw [if_pos hn, h n (List.mem_cons_self n rest) (beq_iff_eq.mp hn)]
    · rw [if_neg hn, ih (fun j hj hji => h j (List.mem_cons_of_mem n hj) hji)]

theorem updCode_self (dir : String) (fs : FS) (n : NodeRec) (nm s : String) (k : Nat)
    (hread : ∀ w ∈ nodeWrites dir (classifyNode n s k), fsRead fs w.1 = some w.2) :
    updCode dir fs (nodeEntry n nm (classifyNode n s k)) n = n := by
  cases hc : (classifyNode n s k).code with
  | none => simp [updCode, nodeEntry, hc]
  | some s0 =>
    have hcode : (if isVueNode n then n.format else n.func) = some s0 := by
      have he : (classifyNode n s k).code =
          (if isBlankOpt (if isVueNode n then n.format else n.func) then none
           else (if isVueNode n then n.format else n.func)) := rfl
      rw [he] at hc
      cases hb : isBlankOpt (if isVueNode n then n.format else n.func) with
      | true => rw [hb] at hc; simp at hc
      | false => rw [hb] at hc; simpa using hc
    have hmem : (pjoin dir ((classifyNode n s k).fileName ++ "." ++
        (if (classifyNode n s k).isVue then "vue" else "js")), FsEntry.text s0) ∈
        nodeWrites dir (classifyNode n s k) := by
      unfold nodeWrites
      simp only [hc]
      exact List.mem_append_left _ (List.mem_append_left _ (List.mem_append_left _
        (List.mem_cons_self _ _)))
    have hrt : readText fs (pjoin dir ((classifyNode n s k).fileName ++ "." ++
        (if (classifyNode n s k).isVue then "vue" else "js"))) = some s0 := by
      unfold readText
      rw [hread _ hmem]
    simp only [updCode, nodeEntry, hc, Option.isSome_some, if_true, hrt]
    rw [classifyNode_isVue, classifyNode_isFun]
    cases hv : isVueNode n with
    | true =>
      rw [hv] at hcode
      simp only [if_true] at hcode
      simp [hcode]
    | false =>
      rw [hv] at hcode
      simp only [Bool.false_eq_true, if_false] at hcode
      cases hf : isFunNode n with
      | true => simp [hf, hcode]
      | false => simp [hf]

theorem updInit_self (dir : String) (fs : FS) (n : NodeRec) (nm s : String) (k : Nat)
    (hread : ∀ w ∈ nodeWrites dir (classifyNode n s k), fsRead fs w.1 = some w.2) :
    updInit dir fs (nodeEntry n nm (classifyNode n s k)) n = n := by
  cases hc : (classifyNode n s k).initCode with
  | none => simp [updInit, nodeEntry, hc]
  | some s0 =>
    have hinit : n.initCode = some s0 := by
      have he : (classifyNode n s k).initCode =
          (if isBlankOpt (if isFunNode n then n.initCode else none) then none
           else (if isFunNode n then n.initCode else none)) := rfl
      rw [he] at hc
      cases hb : isBlankOpt (if isFunNode n then n.initCode else none) with
      | true => rw [hb] at hc; simp at hc
      | false =>
        rw [hb] at hc
        simp only [Bool.false_eq_true, if_false] at hc
        cases hf : isFunNode n with
        | true => rw [hf] at hc; simpa using hc
        | false => rw [hf] at hc; simp at hc
    have hmem : (pjoin dir ((classifyNode n s k).fileName ++ ".initialize.js"),
        FsEntry.text s0) ∈ nodeWrites dir (classifyNode n s k) := by
      unfold nodeWrites
      simp only [hc]
      exact List.mem_append_left _ (List.mem_append_left _ (List.mem_append_right _
        (List.mem_cons_self _ _)))
    have hrt : readText fs (pjoin dir ((classifyNode n s k).fileName ++ ".initialize.js")) =
        some s0 := by
      unfold readText
      rw [hread _ hmem]
    simp [updInit, nodeEntry, hc, hrt, hinit]

theorem updFin_self (dir : String) (fs : FS) (n : NodeRec) (nm s : String) (k : Nat)
    (hread : ∀ w ∈ nodeWrites dir (classifyNode n s k), fsRead fs w.1 = some w.2) :
    updFin dir fs (nodeEntry n nm (classifyNode n s k)) n = n := by
  cases hc : (classifyNode n s k).finCode with
  | none => simp [updFin, nodeEntry, hc]
  | some s0 =>
    have hfin : n.finCode = some s0 := by
      have he : (classifyNode n s k).finCode =
          (if isBlankOpt (if isFunNode n then n.finCode else none) then none
           else (if isFunNode n then n.finCode else none)) := rfl
      rw [he] at hc
      cases hb : isBlankOpt (if isFunNode n then n.finCode else none) with
      | true => rw [hb] at hc; simp at hc
      | false =>
        rw [hb] at hc
        simp only [Bool.false_eq_true, if_false] at hc
        cases hf : isFunNode n with
        | true => rw [hf] at hc; simpa using hc
        | false => rw [hf] at hc; simp at hc
    have hmem : (pjoin dir ((classifyNode n s k).fileName ++ ".finalize.js"),
        FsEntry.text s0) ∈ nodeWrites dir (classifyNode n s k) := by
      unfold nodeWrites
      simp only [hc]
      exact List.mem_append_left _ (List.mem_append_right _ (List.mem_cons_self _ _))
    have hrt : readText fs (pjoin dir ((classifyNode n s k).fileName ++ ".finalize.js")) =
        some s0 := by
      unfold readText
      rw [hread _ hmem]
    simp [updFin, nodeEntry, hc, hrt, hfin]

theorem updInfo_self (dir : String) (fs : FS) (n : NodeRec) (nm s : String) (k : Nat)
    (hread : ∀ w ∈ nodeWrites dir (classifyNode n s k), fsRead fs w.1 = some w.2) :
    updInfo dir fs (nodeEntry n nm (classifyNode n s k)) n = n := by
  cases hc : (classifyNode n s k).info with
  | none => simp [updInfo, nodeEntry, hc]
  | some s0 =>
    have hinfo : n.info = some s0 := by
      have he : (classifyNode n s k).info =
          (if isBlankOpt n.info then none else n.info) := rfl
      rw [he] at hc
      cases hb : isBlankOpt n.info with
      | true => rw [hb] at hc; simp at hc
      | false => rw [hb] at hc; simpa using hc
    have hmem : (pjoin dir ((classifyNode n s k).fileName ++ ".info.md"),
        FsEntry.text s0) ∈ nodeWrites dir (classifyNode n s k) := by
      unfold nodeWrites
      simp only [hc]
      exact List.mem_append_right _ (List.mem_cons_self _ _)
    have hrt : readText fs (pjoin dir ((classifyNode n s k).fileName ++ ".info.md")) =
        some s0 := by
      unfold readText
      rw [hread _ hmem]
    simp [updInfo, nodeEntry, hc, hrt, hinfo]

theorem updateNode_self (dir : String) (fs : FS) (n : NodeRec) (nm s : String) (k : Nat)
    (hread : ∀ w ∈ nodeWrites dir (classifyNode n s k), fsRead fs w.1 = some w.2) :
    updateNode dir fs (nodeEntry n nm (classifyNode n s k)) n = n := by
  unfold updateNode
  rw [updCode_self dir fs n nm s k hread, updInit_self dir fs n nm s k hread,
    updFin_self dir fs n nm s k hread, updInfo_self dir fs n nm s k hread]

/-- C1 (amended): the round trip `restore(extract(E))` returns every node
byte-identical whenever the node ids are pairwise distinct and the extraction
pass's write paths are pairwise distinct (no two nodes resolve to the same
basename, as the ordinal-suffix scheme can produce when a literal name like
Foo(2) collides with a generated suffix), with at least one extractable node.
Without the path-distinctness hypothesis the property is false
(`c1_counterexample`). -/
theorem c1_round_trip (nodes : List NodeRec) (flowName flowDir : String) (fs : FS)
    (hids : (nodes.map (fun n => n.id)).Nodup)
    (hw : ((writeSeq (pjoin flowDir flowName) nodes).map Prod.fst).Nodup)
    (hext : nodes.any extractable = true) :
    restoreFunctionsAndTemplates nodes flowName flowDir
      (extractFresh nodes flowName flowDir fs) = nodes := by
  have hne : nodes ≠ [] := by
    intro h
    rw [h] at hext
    simp at hext
  have hcnt : (passPure (pjoin flowDir flowName) nodes).count > 0 :=
    count_pos_of_any (pjoin flowDir flowName) nodes ⟨[], [], [], 0⟩ hext
  have hmfmem : (manifestPath (pjoin flowDir flowName),
      FsEntry.mf (manifestOf (pjoin flowDir flowName) nodes)) ∈
      writeSeq (pjoin flowDir flowName) nodes := by
    unfold writeSeq
    simp only [hcnt, if_true]
    exact List.mem_append_right _ (List.mem_cons_self _ _)
  have hmf : fsRead (extractFresh nodes flowName flowDir fs)
      (manifestPath (pjoin flowDir flowName)) =
      some (FsEntry.mf (manifestOf (pjoin flowDir flowName) nodes)) := by
    rw [fsRead_extractFresh nodes flowName flowDir fs _ hne,
      lastWrite_of_mem_nodup _ _ _ hw hmfmem]
    rfl
  have hstep : ∀ kv ∈ manifestOf (pjoin flowDir flowName) nodes,
      updateFirst nodes kv.1
        (updateNode (pjoin flowDir flowName) (extractFresh nodes flowName flowDir fs) kv.2) =
      nodes := by
    intro kv hkv
    obtain ⟨node, hnode, hid, name, k, hraw, hentry, hws⟩ :=
      manifest_prov (pjoin flowDir flowName) nodes kv hkv
    rw [hid, hentry]
    refine updateFirst_congr nodes node.id _ ?_
    intro j hj hjid
    have hjn : j = node := nodup_map_inj hids j hj node hnode hjid
    subst hjn
    refine updateNode_self (pjoin flowDir flowName) _ j name (sanitize name) k ?_
    intro w hwm
    rw [fsRead_extractFresh nodes flowName flowDir fs _ hne,
      lastWrite_of_mem_nodup _ _ _ hw (hws w hwm)]
    rfl
  have hempty : nodes.isEmpty = false := by
    cases nodes with
    | nil => exact absurd rfl hne
    | cons a l => rfl
  unfold restoreFunctionsAndTemplates
  rw [hempty]
  simp only [Bool.false_eq_true, if_false, hmf]
  exact foldl_fixed _ nodes _ hstep

/-- C1 counterexample: nodes named Foo, Foo, Foo(2) extract to basenames Foo,
Foo(2), Foo(2) — the ordinal suffix of the second node collides with the
literal name of the third, the third node's file overwrites the second's, and
restoration hands the third node's code to the second node. -/
theorem c1_counterexample :
    restoreFunctionsAndTemplates
        [mkFunNode "1" "Foo" "a", mkFunNode "2" "Foo" "b", mkFunNode "3" "Foo(2)" "c"]
        "flow" "d"
        (extractFresh
          [mkFunNode "1" "Foo" "a", mkFunNode "2" "Foo" "b", mkFunNode "3" "Foo(2)" "c"]
          "flow" "d" []) ≠
      [mkFunNode "1" "Foo" "a", mkFunNode "2" "Foo" "b", mkFunNode "3" "Foo(2)" "c"] := by
  decide

/-! ## Claim C3 -/

theorem digitChar_inj : ∀ a < 10, ∀ b < 10, Nat.digitChar a = Nat.digitChar b → a = b := by
  decide

theorem digitChar_ne_paren : ∀ a < 10, ¬(Nat.digitChar a = '(') := by
  decide

theorem decChars_ne_nil (f n : Nat) (hf : 0 < f) : decChars f n ≠ [] := by
  cases f with
  | zero => exact absurd hf (Nat.lt_irrefl 0)
  | succ g =>
    unfold decChars
    split
    · simp
    · simp

theorem decChars_mem_digit : ∀ f n : Nat, n < f → ∀ c ∈ decChars f n,
    ∃ a, a < 10 ∧ c = Nat.digitChar a := by
  intro f
  induction f with
  | zero => intro n hn; exact absurd hn (Nat.not_lt_zero n)
  | succ g ih =>
    intro n hn c hc
    unfold decChars at hc
    by_cases h10 : n < 10
    · rw [if_pos h10] at hc
      rw [List.mem_singleton] at hc
      exact ⟨n, h10, hc⟩
    · rw [if_neg h10] at hc
      rcases List.mem_append.mp hc with h1 | h1
      · exact ih (n / 10) (by omega) c h1
      · rw [List.mem_singleton] at h1
        exact ⟨n % 10, Nat.mod_lt n (by omega), h1⟩

theorem append_singleton_inj (a b : List Char) (x y : Char) (h : a ++ [x] = b ++ [y]) :
    a = b ∧ x = y := by
  have hr := congrArg List.reverse h
  rw [List.reverse_append, List.reverse_append] at hr
  simp only [List.reverse_cons, List.reverse_nil, List.nil_append, List.singleton_append] at hr
  obtain ⟨h1, h2⟩ := List.cons.inj hr
  exact ⟨List.reverse_inj.mp h2, h1⟩

theorem decChars_inj : ∀ f m n g : Nat, m < f → n < g →
    decChars f m = decChars g n → m = n := by
  intro f
  induction f with
  | zero => intro m n g hm; exact absurd hm (Nat.not_lt_zero m)
  | succ f2 ih =>
    intro m n g hm hn h
    cases g with
    | zero => exact absurd hn (Nat.not_lt_zero n)
    | succ g2 =>
      unfold decChars at h
      by_cases hm10 : m < 10 <;> by_cases hn10 : n < 10
      · rw [if_pos hm10, if_pos hn10] at h
        exact digitChar_inj m hm10 n hn10 (List.cons.inj h).1
      · rw [if_pos hm10, if_neg hn10] at h
        have hlen := congrArg List.length h
        rw [List.length_append] at hlen
        simp only [List.length_singleton] at hlen
        have hnil : decChars g2 (n / 10) = [] := List.length_eq_zero.mp (by omega)
        exact absurd hnil (decChars_ne_nil g2 (n / 10) (by omega))
      · rw [if_neg hm10, if_pos hn10] at h
        have hlen := congrArg List.length h
        rw [List.length_append] at hlen
        simp only [List.length_singleton] at hlen
        have hnil : decChars f2 (m / 10) = [] := List.length_eq_zero.mp (by omega)
        exact absurd hnil (decChars_ne_nil f2 (m / 10) (by omega))
      · rw [if_neg hm10, if_neg hn10] at h
        obtain ⟨h1, h2⟩ := append_singleton_inj _ _ _ _ h
        have hmod : m % 10 = n % 10 :=
          digitChar_inj _ (Nat.mod_lt m (by omega)) _ (Nat.mod_lt n (by omega)) h2
        have hdiv : m / 10 = n / 10 := ih (m / 10) (n / 10) g2 (by omega) (by omega) h1
        omega

theorem natDecimal_inj (m n : Nat) (h : natDecimal m = natDecimal n) : m = n := by
  have hd : decChars (m + 1) m = decChars (n + 1) n := congrArg String.data h
  exact decChars_inj (m + 1) m n (n + 1) (Nat.lt_succ_self m) (Nat.lt_succ_self n) hd

theorem natDecimal_no_paren (n : Nat) : '(' ∉ (natDecimal n).data := by
  intro hmem
  obtain ⟨a, ha, hc⟩ := decChars_mem_digit (n + 1) n (Nat.lt_succ_self n) '(' hmem
  exact digitChar_ne_paren a ha hc.symm

theorem str_eq_of_data {s t : String} (h : s.data = t.data) : s = t := by
  cases s
  cases t
  exact congrArg String.mk h

theorem paren_split : ∀ (a b a2 b2 : List Char), '(' ∉ a → '(' ∉ a2 →
    a ++ '(' :: b = a2 ++ '(' :: b2 → a = a2 ∧ b = b2 := by
  intro a
  induction a with
  | nil =>
    intro b a2 b2 _ ha2 h
    cases a2 with
    | nil =>
      simp only [List.nil_append] at h
      exact ⟨rfl, (List.cons.inj h).2⟩
    | cons c t =>
      simp only [List.nil_append, List.cons_append] at h
      obtain ⟨hc, _⟩ := List.cons.inj h
      exact absurd (by rw [← hc]; exact List.mem_cons_self _ _) ha2
  | cons c t ih =>
    intro b a2 b2 ha ha2 h
    cases a2 with
    | nil =>
      simp only [List.nil_append, List.cons_append] at h
      obtain ⟨hc, _⟩ := List.cons.inj h
      exact absurd (by rw [hc]; exact List.mem_cons_self _ _) ha
    | cons c2 t2 =>
      simp only [List.cons_append] at h
      obtain ⟨hc, ht⟩ := List.cons.inj h
      have hta : '(' ∉ t := fun hx => ha (List.mem_cons_of_mem c hx)
      have hta2 : '(' ∉ t2 := fun hx => ha2 (List.mem_cons_of_mem c2 hx)
      obtain ⟨h1, h2⟩ := ih b t2 b2 hta hta2 ht
      exact ⟨by rw [hc, h1], h2⟩

theorem fname_data (s : String) (k : Nat) :
    (s ++ "(" ++ natDecimal k ++ ")").data = s.data ++ '(' :: ((natDecimal k).data ++ [')']) := by
  rw [String.data_append, String.data_append, String.data_append]
  have h1 : ("(" : String).data = ['('] := by decide
  have h2 : (")" : String).data = [')'] := by decide
  rw [h1, h2]
  simp [List.append_assoc]

theorem fname_ne (s s2 : String) (k k2 : Nat)
    (hs : '(' ∉ s.data) (hs2 : '(' ∉ s2.data)
    (hne : ¬(s = s2 ∧ k = k2)) (hk : 1 ≤ k) (hk2 : 1 ≤ k2) :
    ¬((if k > 1 then s ++ "(" ++ natDecimal k ++ ")" else s) =
      (if k2 > 1 then s2 ++ "(" ++ natDecimal k2 ++ ")" else s2)) := by
  intro h
  by_cases h1 : k > 1 <;> by_cases h2 : k2 > 1
  · rw [if_pos h1, if_pos h2] at h
    have hd := congrArg String.data h
    rw [fname_data, fname_data] at hd
    obtain ⟨hss, hrest⟩ :=
      paren_split s.data ((natDecimal k).data ++ [')']) s2.data ((natDecimal k2).data ++ [')'])
        hs hs2 hd
    obtain ⟨hdk, _⟩ := append_singleton_inj _ _ _ _ hrest
    exact hne ⟨str_eq_of_data hss, natDecimal_inj k k2 (str_eq_of_data hdk)⟩
  · rw [if_pos h1, if_neg h2] at h
    apply hs2
    rw [← h, fname_data]
    exact List.mem_append_right _ (List.mem_cons_self _ _)
  · rw [if_neg h1, if_pos h2] at h
    apply hs
    rw [h, fname_data]
    exact List.mem_append_right _ (List.mem_cons_self _ _)
  · rw [if_neg h1, if_neg h2] at h
    exact hne ⟨h, by omega⟩

theorem classifyNode_fileName (n : NodeRec) (s : String) (k : Nat) :
    (classifyNode n s k).fileName =
      (if k > 1 then s ++ "(" ++ natDecimal k ++ ")" else s) := rfl

theorem nodeEntry_fileName (n : NodeRec) (nm : String) (c : NodeClass) :
    (nodeEntry n nm c).fileName = c.fileName := rfl

theorem nodup_append_single {α : Type} (l : List α) (x : α) (hl : l.Nodup) (hx : x ∉ l) :
    (l ++ [x]).Nodup := by
  induction l with
  | nil => simp
  | cons a t ih =>
    rw [List.cons_append, List.nodup_cons]
    rw [List.nodup_cons] at hl
    refine ⟨?_, ih hl.2 (fun hm => hx (List.mem_cons_of_mem a hm))⟩
    intro hmem
    rcases List.mem_append.mp hmem with hin | hin
    · exact hl.1 hin
    · rw [List.mem_singleton] at hin
      exact hx (by rw [← hin]; exact List.mem_cons_self a t)

theorem filter_append_single_le (l : List String) (x : String) (p : String → Bool) :
    (l.filter p).length ≤ ((l ++ [x]).filter p).length := by
  rw [List.filter_append, List.length_append]
  exact Nat.le_add_right _ _

theorem filter_append_self_count (l : List String) (x : String) :
    ((l ++ [x]).filter (fun y => y == x)).length = (l.filter (fun y => y == x)).length + 1 := by
  rw [List.filter_append, List.length_append]
  simp

theorem processPure_extract_eq (dir : String) (st : PassPure) (n : NodeRec) (name : String)
    (hn : rawName n = some name) (hcl : extractable n = true) :
    processPure dir st n =
      ⟨st.ws ++ nodeWrites dir (classifyNode n (sanitize name)
          ((st.fileNames.filter (fun x => x == sanitize name)).length + 1)),
       mUpdate st.manifest n.id (nodeEntry n name (classifyNode n (sanitize name)
          ((st.fileNames.filter (fun x => x == sanitize name)).length + 1))),
       st.fileNames ++ [sanitize name], st.count + 1⟩ := by
  rcases st with ⟨ws0, m0, f0, c0⟩
  unfold extractable at hcl
  rw [hn] at hcl
  simp only [Option.isSome_some, Bool.true_and] at hcl
  simp [processPure, hn, classifyNode_isVue, classifyNode_isFun, hcl]

theorem processPure_skip_eq (dir : String) (st : PassPure) (n : NodeRec) (name : String)
    (hn : rawName n = some name) (hcl : extractable n = false) :
    processPure dir st n = { st with fileNames := st.fileNames ++ [sanitize name] } := by
  rcases st with ⟨ws0, m0, f0, c0⟩
  unfold extractable at hcl
  rw [hn] at hcl
  simp only [Option.isSome_some, Bool.true_and] at hcl
  simp [processPure, hn, classifyNode_isVue, classifyNode_isFun, hcl]

theorem mUpdate_not_mem (m : Manifest) (i : String) (e : ManifestEntry)
    (h : ∀ kv ∈ m, ¬(kv.1 = i)) : mUpdate m i e = m ++ [(i, e)] := by
  unfold mUpdate
  rw [if_neg ?_]
  intro hx
  obtain ⟨kv, hkv, hbeq⟩ := List.any_eq_true.mp hx
  exact h kv hkv (beq_iff_eq.mp hbeq)

theorem entriesFor_append (a b : Manifest) (i : String) :
    entriesFor (a ++ b) i = entriesFor a i ++ entriesFor b i := by
  simp [entriesFor, List.filter_append]

theorem entriesFor_nil_of (m : Manifest) (i : String) (h : ∀ kv ∈ m, ¬(kv.1 = i)) :
    entriesFor m i = [] := by
  unfold entriesFor
  rw [List.filter_eq_nil_iff.mpr (fun kv hkv => by
    simp only [beq_iff_eq]
    exact h kv hkv)]
  rfl

theorem filter_map_update (m : Manifest) (j i : String) (e : ManifestEntry) (hji : ¬(j = i)) :
    (m.map (fun kv => if kv.1 == j then (j, e) else kv)).filter (fun kv => kv.1 == i) =
      m.filter (fun kv => kv.1 == i) := by
  induction m with
  | nil => rfl
  | cons kv t ih =>
    rw [List.map_cons]
    cases hk : kv.1 == j with
    | true =>
      have hj : kv.1 = j := beq_iff_eq.mp hk
      have he1 : ((j, e).1 == i) = false := beq_eq_false_iff_ne.mpr hji
      have he2 : (kv.1 == i) = false := by rw [hj]; exact beq_eq_false_iff_ne.mpr hji
      rw [if_pos rfl, List.filter_cons, List.filter_cons]
      simp only [he1, he2, Bool.false_eq_true, if_false]
      exact ih
    | false =>
      rw [if_neg (by simp), List.filter_cons, List.filter_cons, ih]

theorem entriesFor_mUpdate_ne (m : Manifest) (j i : String) (e : ManifestEntry)
    (hji : ¬(j = i)) : entriesFor (mUpdate m j e) i = entriesFor m i := by
  unfold mUpdate
  by_cases ha : m.any (fun kv => kv.1 == j) = true
  · rw [if_pos ha]
    unfold entriesFor
    rw [filter_map_update m j i e hji]
  · rw [if_neg ha, entriesFor_append]
    have h0 : entriesFor [(j, e)] i = [] := by
      simp [entriesFor, beq_eq_false_iff_ne.mpr hji]
    rw [h0, List.append_nil]

theorem entriesFor_fold_ne (dir : String) (i : String) :
    ∀ (l : List NodeRec) (st : PassPure), (∀ j ∈ l, ¬(j.id = i)) →
      entriesFor ((l.foldl (processPure dir) st).manifest) i = entriesFor st.manifest i := by
  intro l
  induction l with
  | nil => intro st _; rfl
  | cons j t ih =>
    intro st h
    rw [List.foldl_cons, ih (processPure dir st j) (fun u hu => h u (List.mem_cons_of_mem j hu))]
    rcases processPure_cases dir st j with ⟨hm, _⟩ | ⟨name, k, _, hm, _⟩
    · rw [hm]
    · rw [hm, entriesFor_mUpdate_ne _ _ _ _ (h j (List.mem_cons_self j t))]

theorem fold_fileNames (dir : String) (nodes : List NodeRec) :
    ∀ st : PassPure, (nodes.foldl (processPure dir) st).fileNames =
      st.fileNames ++ nodes.filterMap (fun j => (rawName j).map sanitize) := by
  induction nodes with
  | nil => intro st; simp
  | cons n rest ih =>
    intro st
    rw [List.foldl_cons, ih]
    cases hn : rawName n with
    | none =>
      have h1 : (processPure dir st n).fileNames = st.fileNames := by
        rcases st with ⟨ws0, m0, f0, c0⟩
        simp [processPure, hn]
      rw [h1, List.filterMap_cons]
      simp [hn]
    | some name =>
      have h1 : (processPure dir st n).fileNames = st.fileNames ++ [sanitize name] := by
        rcases st with ⟨ws0, m0, f0, c0⟩
        simp only [processPure, hn]
        split
        · simp
        · simp
      rw [h1, List.filterMap_cons]
      simp [hn, List.append_assoc]

theorem manifest_entry_at (dir : String) (pre post : List NodeRec) (n : NodeRec) (name : String)
    (hn : rawName n = some name) (hcl : extractable n = true)
    (hpre : ∀ j ∈ pre, ¬(j.id = n.id)) (hpost : ∀ j ∈ post, ¬(j.id = n.id)) :
    entriesFor (manifestOf dir (pre ++ n :: post)) n.id =
      [nodeEntry n name (classifyNode n (sanitize name)
        (((pre.filterMap (fun j => (rawName j).map sanitize)).filter
            (fun x => x == sanitize name)).length + 1))] := by
  have e1 : manifestOf dir (pre ++ n :: post) =
      (post.foldl (processPure dir)
        (processPure dir (pre.foldl (processPure dir) ⟨[], [], [], 0⟩) n)).manifest := by
    unfold manifestOf passPure
    rw [List.foldl_append]
    rfl
  rw [e1, entriesFor_fold_ne dir n.id post _ hpost]
  have hfresh : ∀ kv ∈ (pre.foldl (processPure dir) ⟨[], [], [], 0⟩).manifest,
      ¬(kv.1 = n.id) := by
    intro kv hkv
    obtain ⟨node, hnode, hid, _, _, _, _, _⟩ :=
      fold_prov dir pre pre ⟨[], [], [], 0⟩ (fun j hj => hj) (by intro kv2 h2; cases h2) kv hkv
    rw [hid]
    exact hpre node hnode
  rw [processPure_extract_eq dir _ n name hn hcl]
  dsimp only
  rw [mUpdate_not_mem _ _ _ hfresh, entriesFor_append, entriesFor_nil_of _ _ hfresh]
  have hfn : (pre.foldl (processPure dir) ⟨[], [], [], 0⟩).fileNames =
      pre.filterMap (fun j => (rawName j).map sanitize) := by
    rw [fold_fileNames]
    rfl
  rw [hfn]
  simp [entriesFor]

theorem fold_nodup (dir : String) :
    ∀ (nodes : List NodeRec) (st : PassPure),
      (nodes.map (fun n => n.id)).Nodup →
      (∀ j ∈ nodes, ∀ kv ∈ st.manifest, ¬(kv.1 = j.id)) →
      (∀ j ∈ nodes, ∀ nm, rawName j = some nm → '(' ∉ (sanitize nm).data) →
      (∀ kv ∈ st.manifest, ∃ s k, '(' ∉ s.data ∧ 1 ≤ k ∧
        k ≤ (st.fileNames.filter (fun x => x == s)).length ∧
        kv.2.fileName = (if k > 1 then s ++ "(" ++ natDecimal k ++ ")" else s)) →
      (st.manifest.map (fun kv => kv.2.fileName)).Nodup →
      ((nodes.foldl (processPure dir) st).manifest.map (fun kv => kv.2.fileName)).Nodup := by
  intro nodes
  induction nodes with
  | nil => intro st _ _ _ _ h5; exact h5
  | cons n rest ih =>
    intro st h1 h2 h3 h4 h5
    rw [List.foldl_cons]
    rw [List.map_cons, List.nodup_cons] at h1
    obtain ⟨hnid, h1r⟩ := h1
    have hidsne : ∀ j ∈ rest, ¬(n.id = j.id) := by
      intro j hj he
      have hmem : j.id ∈ List.map (fun x => x.id) rest := List.mem_map_of_mem _ hj
      rw [← he] at hmem
      exact hnid hmem
    cases hn : rawName n with
    | none =>
      have hst : processPure dir st n = st := by
        rcases st with ⟨ws0, m0, f0, c0⟩
        simp [processPure, hn]
      rw [hst]
      exact ih st h1r (fun j hj => h2 j (List.mem_cons_of_mem n hj))
        (fun j hj => h3 j (List.mem_cons_of_mem n hj)) h4 h5
    | some name =>
      have hparn : '(' ∉ (sanitize name).data := h3 n (List.mem_cons_self n rest) name hn
      by_cases hcl : extractable n = true
      · rw [processPure_extract_eq dir st n name hn hcl]
        have hfr : ∀ kv ∈ st.manifest, ¬(kv.1 = n.id) := h2 n (List.mem_cons_self n rest)
        refine ih _ h1r ?_ (fun j hj => h3 j (List.mem_cons_of_mem n hj)) ?_ ?_
        · intro j hj kv hkv
          dsimp only at hkv
          rw [mUpdate_not_mem _ _ _ hfr] at hkv
          rcases List.mem_append.mp hkv with hin | hin
          · exact h2 j (List.mem_cons_of_mem n hj) kv hin
          · rw [List.mem_singleton] at hin
            rw [hin]
            exact hidsne j hj
        · intro kv hkv
          dsimp only at hkv ⊢
          rw [mUpdate_not_mem _ _ _ hfr] at hkv
          rcases List.mem_append.mp hkv with hin | hin
          · obtain ⟨s, k, hsp, hk1, hkb, hf⟩ := h4 kv hin
            exact ⟨s, k, hsp, hk1,
              Nat.le_trans hkb (filter_append_single_le st.fileNames (sanitize name) _), hf⟩
          · rw [List.mem_singleton] at hin
            rw [hin]
            refine ⟨sanitize name,
              (st.fileNames.filter (fun x => x == sanitize name)).length + 1, hparn,
              Nat.succ_le_succ (Nat.zero_le _), ?_, ?_⟩
            · rw [filter_append_self_count]
            · rw [nodeEntry_fileName, classifyNode_fileName]
        · dsimp only
          rw [mUpdate_not_mem _ _ _ hfr, List.map_append, List.map_cons, List.map_nil]
          refine nodup_append_single _ _ h5 ?_
          intro hmem
          obtain ⟨kv, hkv, hfe⟩ := List.mem_map.mp hmem
          obtain ⟨s, k, hsp, hk1, hkb, hf⟩ := h4 kv hkv
          have hKne : ¬(s = sanitize name ∧
              k = (st.fileNames.filter (fun x => x == sanitize name)).length + 1) := by
            rintro ⟨rfl, hkk⟩
            omega
          have hfe2 : (if k > 1 then s ++ "(" ++ natDecimal k ++ ")" else s) =
              (if (st.fileNames.filter (fun x => x == sanitize name)).length + 1 > 1 then
                sanitize name ++ "(" ++
                  natDecimal ((st.fileNames.filter (fun x => x == sanitize name)).length + 1)
                  ++ ")"
              else sanitize name) := by
            rw [← hf, hfe, nodeEntry_fileName, classifyNode_fileName]
          exact fname_ne s (sanitize name) k
            ((st.fileNames.filter (fun x => x == sanitize name)).length + 1)
            hsp hparn hKne hk1 (Nat.succ_le_succ (Nat.zero_le _)) hfe2
      · have hcl2 : extractable n = false := by
          cases hx : extractable n with
          | true => exact absurd hx hcl
          | false => rfl
        rw [processPure_skip_eq dir st n name hn hcl2]
        refine ih _ h1r ?_ (fun j hj => h3 j (List.mem_cons_of_mem n hj)) ?_ ?_
        · intro j hj kv hkv
          dsimp only at hkv
          exact h2 j (List.mem_cons_of_mem n hj) kv hkv
        · intro kv hkv
          dsimp only at hkv ⊢
          obtain ⟨s, k, hsp, hk1, hkb, hf⟩ := h4 kv hkv
          exact ⟨s, k, hsp, hk1,
            Nat.le_trans hkb (filter_append_single_le st.fileNames (sanitize name) _), hf⟩
        · dsimp only
          exact h5

/-- C3 (amended): the ordinal-suffix rule holds — a node whose sanitized name
already occurred `k` times among the previously pushed sanitized names gets
basename `name(k+1)` (formally: its manifest entry is classified at count
prior+1, and `classifyNode` appends `(count)` exactly when count > 1) — but the
resulting `fileName` values are pairwise distinct only under the additional
hypothesis that no sanitized node name contains the character `(`; without it
a generated suffix can equal another node's literal name (`c3_counterexample`).
Node ids are assumed pairwise distinct. -/
theorem c3_fileName_unique (nodes : List NodeRec) (flowName flowDir : String)
    (hids : (nodes.map (fun n => n.id)).Nodup)
    (hpar : ∀ j ∈ nodes, ∀ nm, rawName j = some nm → '(' ∉ (sanitize nm).data) :
    (∀ (node : NodeRec) (s : String) (k : Nat), (classifyNode node s k).fileName =
      (if k > 1 then s ++ "(" ++ natDecimal k ++ ")" else s)) ∧
    (∀ (pre post : List NodeRec) (n : NodeRec) (name : String),
      nodes = pre ++ n :: post → rawName n = some name → extractable n = true →
      entriesFor (manifestOf (pjoin flowDir flowName) nodes) n.id =
        [nodeEntry n name (classifyNode n (sanitize name)
          (((pre.filterMap (fun j => (rawName j).map sanitize)).filter
              (fun x => x == sanitize name)).length + 1))]) ∧
    ((manifestOf (pjoin flowDir flowName) nodes).map (fun kv => kv.2.fileName)).Nodup := by
  refine ⟨fun node s k => rfl, ?_, ?_⟩
  · intro pre post n name hsplit hn hcl
    subst hsplit
    have hids2 := hids
    rw [List.map_append] at hids2
    obtain ⟨ha1, ha2, hdisj⟩ := List.nodup_append.mp hids2
    rw [List.map_cons, List.nodup_cons] at ha2
    have hpost : ∀ j ∈ post, ¬(j.id = n.id) := by
      intro j hj he
      exact ha2.1 (by rw [← he]; exact List.mem_map_of_mem _ hj)
    have hpre : ∀ j ∈ pre, ¬(j.id = n.id) := by
      intro j hj he
      exact hdisj (List.mem_map_of_mem _ hj)
        (by rw [List.map_cons]; rw [he]; exact List.mem_cons_self _ _)
    exact manifest_entry_at (pjoin flowDir flowName) pre post n name hn hcl hpre hpost
  · exact fold_nodup (pjoin flowDir flowName) nodes ⟨[], [], [], 0⟩ hids
      (by intro j hj kv hkv; cases hkv) hpar (by intro kv hkv; cases hkv) (by simp)

/-- C3 counterexample: nodes named Foo, Foo, Foo(2) yield manifest fileNames
Foo, Foo(2), Foo(2) — not pairwise distinct, because the generated ordinal
suffix of the second Foo equals the literal sanitized name of the third
node. -/
theorem c3_counterexample :
    ¬(((manifestOf (pjoin "d" "flow")
        [mkFunNode "1" "Foo" "a", mkFunNode "2" "Foo" "b", mkFunNode "3" "Foo(2)" "c"]).map
          (fun kv => kv.2.fileName)).Nodup) := by
  decide

/-- Witness for the amended C3 theorem at paren-free names. -/
theorem c3_witness :
    ((manifestOf (pjoin "d" "flow") [mkFunNode "1" "Foo" "a", mkFunNode "2" "Bar" "b"]).map
      (fun kv => kv.2.fileName)).Nodup :=
  (c3_fileName_unique [mkFunNode "1" "Foo" "a", mkFunNode "2" "Bar" "b"] "flow" "d"
    (by decide)
    (by
      intro j hj nm hnm
      rcases List.mem_cons.mp hj with rfl | hj2
      · have h2 : rawName (mkFunNode "1" "Foo" "a") = some "Foo" := by decide
        rw [h2] at hnm
        have hnm2 : nm = "Foo" := (Option.some.inj hnm).symm
        subst hnm2
        decide
      · rcases List.mem_cons.mp hj2 with rfl | hj3
        · have h2 : rawName (mkFunNode "2" "Bar" "b") = some "Bar" := by decide
          rw [h2] at hnm
          have hnm2 : nm = "Bar" := (Option.some.inj hnm).symm
          subst hnm2
          decide
        · cases hj3)).2.2

/-- Witness for the amended C1 theorem on a collision-free node list. -/
theorem c1_witness :
    restoreFunctionsAndTemplates [mkFunNode "1" "Foo" "a", mkFunNode "2" "Bar" "b"]
        "flow" "d"
        (extractFresh [mkFunNode "1" "Foo" "a", mkFunNode "2" "Bar" "b"] "flow" "d" []) =
      [mkFunNode "1" "Foo" "a", mkFunNode "2" "Bar" "b"] :=
  c1_round_trip [mkFunNode "1" "Foo" "a", mkFunNode "2" "Bar" "b"] "flow" "d" []
    (by decide) (by decide) (by decide)

end FlowSplitter
